import Mathlib

/-!
Verification of the storage and replication core of the jmap-server
repository, shallow-embedded from the Rust sources:

* `components/store/src/serialize.rs` — key codec
* `components/store/src/write/batch.rs` — changelog `Change` serialization
* `components/store_rocksdb/src/insert.rs` — write pipeline
* `components/jmap/src/jmap_store/orm.rs` — `TinyORM::merge`
* `src/cluster/log.rs` — Raft follower `handle_update_log` and leader
  `prepare_changes`

Machine integers are modelled as `Nat` (all values that appear here are
unsigned); byte strings as `List Nat` with each element < 256 by
construction of the encoders.
-/

namespace JmapStore

/-- Byte strings are lists of byte values. -/
abbrev Bytes := List Nat

/-- Fuel-indexed worker for the LEB128 encoder; the fuel only bounds the
recursion depth and `n + 1` is always sufficient since `n / 128 < n` for
`n ≥ 128`. -/
def toLeb128Go : Nat → Nat → Bytes
  | 0, n => [n]
  | fuel + 1, n => if n < 128 then [n] else (n % 128 + 128) :: toLeb128Go fuel (n / 128)

/-- Modelled from the spec: the store's LEB128 encoder
(`components/store/src/leb128.rs` is not part of this snapshot; the spec
fixes the encoding as standard unsigned LEB128, 7 data bits per byte with
the high bit as continuation marker). -/
def toLeb128Bytes (n : Nat) : Bytes :=
  toLeb128Go n n

/-- Big-endian encoding of `n` into exactly `w` bytes (`to_be_bytes`). -/
def beBytes (w : Nat) (n : Nat) : Bytes :=
  match w with
  | 0 => []
  | v + 1 => beBytes v (n / 256) ++ [n % 256]

/-- Little-endian encoding of `n` into exactly `w` bytes (`to_le_bytes`). -/
def leBytes (w : Nat) (n : Nat) : Bytes :=
  match w with
  | 0 => []
  | v + 1 => n % 256 :: leBytes v (n / 256)

/-- `i64::to_le_bytes` on a signed value, via two's complement. -/
def i64le (z : Int) : Bytes :=
  leBytes 8 ((z % (2 ^ 64)).toNat)

theorem beBytes_length (w n : Nat) : (beBytes w n).length = w := by
  induction w generalizing n with
  | zero => rfl
  | succ v ih => simp [beBytes, ih]

/-- `Tag` from `components/store/src/lib.rs`: `Static(TagId) | Id(Integer) |
Text(str)`; the text payload is carried as its bytes. -/
inductive Tag where
  | static (id : Nat)
  | id (id : Nat)
  | text (t : Bytes)
deriving DecidableEq, Repr

/-! Key-family discriminators from `components/store/src/serialize.rs`. -/

def BM_TEXT : Nat := 0
def BM_TERM_EXACT : Nat := 1
def BM_TERM_STEMMED : Nat := 2
def BM_TAG_ID : Nat := 3
def BM_TAG_TEXT : Nat := 4
def BM_TAG_STATIC : Nat := 5
def BM_USED_IDS : Nat := 6
def BM_TOMBSTONED_IDS : Nat := 7
def BM_FREED_IDS : Nat := 8

def internalKeyPfx : Nat := 0

/-- `BLOB_KEY = [INTERNAL_KEY_PREFIX, 1]`. -/
def blobKeyPfx : Bytes := [internalKeyPfx, 1]

/-- `serialize_stored_key`. -/
def serialize_stored_key (account collection document field : Nat) : Bytes :=
  toLeb128Bytes account ++ [collection] ++ toLeb128Bytes document ++ [field]

/-- `serialize_blob_key` (the document's blob-list row key). -/
def serialize_blob_key (account collection document : Nat) : Bytes :=
  toLeb128Bytes account ++ [collection] ++ toLeb128Bytes document ++ blobKeyPfx

/-- `serialize_bm_tag_key`. -/
def serialize_bm_tag_key (account collection field : Nat) (tag : Tag) : Bytes :=
  toLeb128Bytes account ++
    (match tag with
      | .static id => [id]
      | .id id => toLeb128Bytes id
      | .text t => t) ++
    [collection, field,
      match tag with
      | .static _ => BM_TAG_STATIC
      | .id _ => BM_TAG_ID
      | .text _ => BM_TAG_TEXT]

/-- `serialize_bm_text_key`. -/
def serialize_bm_text_key (account collection field : Nat) (text : Bytes) : Bytes :=
  toLeb128Bytes account ++ text ++ [collection, field, BM_TEXT]

/-- `serialize_bm_term_key`. -/
def serialize_bm_term_key (account collection field termId : Nat) (isExact : Bool) : Bytes :=
  toLeb128Bytes account ++ toLeb128Bytes termId ++
    [collection, field, if isExact then BM_TERM_EXACT else BM_TERM_STEMMED]

/-- `serialize_bm_internal`. -/
def serialize_bm_internal (account collection id : Nat) : Bytes :=
  toLeb128Bytes account ++ [collection, id]

/-- `serialize_index_key`. -/
def serialize_index_key (account collection document field : Nat) (key : Bytes) : Bytes :=
  beBytes 4 account ++ beBytes 1 collection ++ beBytes 1 field ++ key ++ beBytes 4 document

/-- `serialize_acd_key_leb128` (term-index row key). -/
def serialize_acd_key_leb128 (account collection document : Nat) : Bytes :=
  toLeb128Bytes account ++ [collection] ++ toLeb128Bytes document

/-- `serialize_changelog_key`. -/
def serialize_changelog_key (account collection changeId : Nat) : Bytes :=
  beBytes 4 account ++ beBytes 1 collection ++ beBytes 8 changeId

/-- Modelled from the spec: the Raft log row key (§6.1: `logs: Raft log
(term_be ‖ index_be)`); the serializer itself is not part of this snapshot. -/
def serializeRaftKey (term index : Nat) : Bytes :=
  beBytes 8 term ++ beBytes 8 index

/-- An abstract description of one key of some bitmap family, used to state
the non-aliasing property across the nine families of the `bitmaps` column
family. -/
inductive BmKeySpec where
  | text (account collection field : Nat) (t : Bytes)
  | termExact (account collection field termId : Nat)
  | termStemmed (account collection field termId : Nat)
  | tagId (account collection field id : Nat)
  | tagText (account collection field : Nat) (t : Bytes)
  | tagStatic (account collection field id : Nat)
  | usedIds (account collection : Nat)
  | tombstonedIds (account collection : Nat)
  | freedIds (account collection : Nat)
deriving DecidableEq, Repr

/-- The bitmap family a `BmKeySpec` belongs to, as its discriminator byte. -/
def BmKeySpec.family : BmKeySpec → Nat
  | .text _ _ _ _ => BM_TEXT
  | .termExact _ _ _ _ => BM_TERM_EXACT
  | .termStemmed _ _ _ _ => BM_TERM_STEMMED
  | .tagId _ _ _ _ => BM_TAG_ID
  | .tagText _ _ _ _ => BM_TAG_TEXT
  | .tagStatic _ _ _ _ => BM_TAG_STATIC
  | .usedIds _ _ => BM_USED_IDS
  | .tombstonedIds _ _ => BM_TOMBSTONED_IDS
  | .freedIds _ _ => BM_FREED_IDS

/-- Serialize a bitmap key through the family's serializer from
`serialize.rs`. -/
def BmKeySpec.serialize : BmKeySpec → Bytes
  | .text a c f t => serialize_bm_text_key a c f t
  | .termExact a c f id => serialize_bm_term_key a c f id true
  | .termStemmed a c f id => serialize_bm_term_key a c f id false
  | .tagId a c f id => serialize_bm_tag_key a c f (Tag.id id)
  | .tagText a c f t => serialize_bm_tag_key a c f (Tag.text t)
  | .tagStatic a c f id => serialize_bm_tag_key a c f (Tag.static id)
  | .usedIds a c => serialize_bm_internal a c BM_USED_IDS
  | .tombstonedIds a c => serialize_bm_internal a c BM_TOMBSTONED_IDS
  | .freedIds a c => serialize_bm_internal a c BM_FREED_IDS

theorem bmKeySpec_getLast (s : BmKeySpec) :
    s.serialize.getLast? = some s.family := by
  cases s <;>
    simp [BmKeySpec.serialize, BmKeySpec.family, serialize_bm_text_key,
      serialize_bm_term_key, serialize_bm_tag_key, serialize_bm_internal,
      List.getLast?_append]

theorem changelog_key_length (a c id : Nat) :
    (serialize_changelog_key a c id).length = 13 := by
  simp [serialize_changelog_key, beBytes_length]

theorem raft_key_length (t i : Nat) :
    (serializeRaftKey t i).length = 16 := by
  simp [serializeRaftKey, beBytes_length]

/-! ## Non-aliasing inside the `values` and `blobs` column families

The `values` column family holds five key families (stored field values
and ORM snapshots, term-index rows, document blob-lists, blob
reference counters, the global term-id counter); the `blobs` column family
holds two (content-addressed payloads, temporary upload blobs). Their
non-aliasing rests on the LEB128 encoding being self-delimiting: a
canonical encoding can be re-parsed off the front of any byte string. -/

/-- Canonical LEB128 decoder (`Leb128::from_leb128_bytes`): read one value
off the front of a byte string and return it with the remainder. -/
def lebParse : Bytes → Option (Nat × Bytes)
  | [] => none
  | b :: rest =>
    if b < 128 then some (b, rest)
    else (lebParse rest).map fun p => (p.1 * 128 + (b - 128), p.2)

theorem lebParse_toLeb128Go (r : Bytes) :
    ∀ fuel n, n ≤ fuel → lebParse (toLeb128Go fuel n ++ r) = some (n, r) := by
  intro fuel
  induction fuel with
  | zero =>
    intro n h
    have hn : n = 0 := Nat.le_zero.mp h
    subst hn
    show lebParse (0 :: r) = some (0, r)
    simp [lebParse]
  | succ f ih =>
    intro n h
    by_cases hlt : n < 128
    · rw [toLeb128Go, if_pos hlt]
      simp [lebParse, hlt]
    · have h1 : ¬ (n % 128 + 128 < 128) := by omega
      have h2 : n / 128 ≤ f := by omega
      rw [toLeb128Go, if_neg hlt, List.cons_append]
      simp only [lebParse]
      rw [if_neg h1, ih (n / 128) h2]
      show some (n / 128 * 128 + (n % 128 + 128 - 128), r) = some (n, r)
      have h4 : n / 128 * 128 + (n % 128 + 128 - 128) = n := by omega
      rw [h4]

/-- The LEB128 encoding is self-delimiting: equal byte strings that both
start with a canonical encoding carry the same value and remainder. -/
theorem leb_append_inj (m n : Nat) (r s : Bytes)
    (h : toLeb128Bytes m ++ r = toLeb128Bytes n ++ s) : m = n ∧ r = s := by
  have h1 := lebParse_toLeb128Go r m m le_rfl
  have h2 := lebParse_toLeb128Go s n n le_rfl
  unfold toLeb128Bytes at h
  rw [h, h2] at h1
  injection h1 with h3
  injection h3 with h4 h5
  exact ⟨h4.symm, h5.symm⟩

/-- The common `account ‖ collection ‖ document` LEB128 layout determines
its three ids and whatever tail follows them. -/
theorem acd_tail_inj (a c d a' c' d' : Nat) (t t' : Bytes)
    (h : toLeb128Bytes a ++ [c] ++ toLeb128Bytes d ++ t
       = toLeb128Bytes a' ++ [c'] ++ toLeb128Bytes d' ++ t') :
    a = a' ∧ c = c' ∧ d = d' ∧ t = t' := by
  simp only [List.append_assoc] at h
  obtain ⟨ha, h2⟩ := leb_append_inj a a' _ _ h
  simp only [List.singleton_append] at h2
  injection h2 with hc h3
  obtain ⟨hd, ht⟩ := leb_append_inj d d' _ _ h3
  exact ⟨ha, hc, hd, ht⟩

theorem toLeb128Go_length_pos (fuel n : Nat) : 0 < (toLeb128Go fuel n).length := by
  cases fuel with
  | zero => simp [toLeb128Go]
  | succ f =>
    rw [toLeb128Go]
    split <;> simp

theorem toLeb128Go_length_le :
    ∀ fuel n k, n ≤ fuel → n < 128 ^ (k + 1) → (toLeb128Go fuel n).length ≤ k + 1 := by
  intro fuel
  induction fuel with
  | zero =>
    intro n k h hn
    have hz : n = 0 := Nat.le_zero.mp h
    subst hz
    show ([0] : Bytes).length ≤ k + 1
    simp
  | succ f ih =>
    intro n k h hn
    by_cases hlt : n < 128
    · rw [toLeb128Go, if_pos hlt]
      simp
    · rw [toLeb128Go, if_neg hlt]
      cases k with
      | zero => exact absurd (by simpa using hn) hlt
      | succ q =>
        have h2 : n / 128 ≤ f := by omega
        have h3 : n / 128 < 128 ^ (q + 1) := by
          have hp : (128 : Nat) ^ (q + 1 + 1) = 128 ^ (q + 1) * 128 := by ring
          omega
        have h4 := ih (n / 128) q h2 h3
        simp only [List.length_cons]
        omega

/-- A `u32` value (account or document id) encodes into at most 5 bytes. -/
theorem toLeb128Bytes_length_le_five (n : Nat) (h : n < 2 ^ 32) :
    (toLeb128Bytes n).length ≤ 5 :=
  toLeb128Go_length_le n n 4 le_rfl (lt_of_lt_of_le h (by norm_num))

/-- A `u64` value (blob hash or timestamp) encodes into at most 10 bytes. -/
theorem toLeb128Bytes_length_le_ten (n : Nat) (h : n < 2 ^ 64) :
    (toLeb128Bytes n).length ≤ 10 :=
  toLeb128Go_length_le n n 9 le_rfl (lt_of_lt_of_le h (by norm_num))

/-- `LAST_TERM_ID_KEY = [INTERNAL_KEY_PREFIX, 0]`. -/
def lastTermIdKey : Bytes := [internalKeyPfx, 0]

/-- `TEMP_BLOB_KEY = [INTERNAL_KEY_PREFIX, 2]`. -/
def tempBlobKeyPfx : Bytes := [internalKeyPfx, 2]

/-- `serialize_temporary_blob_key` (arguments as in `serialize.rs`:
account, hash, timestamp; the key is `TEMP_BLOB_KEY` followed by the
LEB128 encodings of the timestamp, the hash and the account). -/
def serialize_temporary_blob_key (account hash timestamp : Nat) : Bytes :=
  tempBlobKeyPfx ++ toLeb128Bytes timestamp ++ toLeb128Bytes hash ++ toLeb128Bytes account

theorem stored_ne_termIndex (a c d f a' c' d' : Nat) :
    serialize_stored_key a c d f ≠ serialize_acd_key_leb128 a' c' d' := by
  intro h
  have h' : toLeb128Bytes a ++ [c] ++ toLeb128Bytes d ++ [f]
      = toLeb128Bytes a' ++ [c'] ++ toLeb128Bytes d' ++ ([] : Bytes) := by
    rw [List.append_nil]
    exact h
  obtain ⟨-, -, -, ht⟩ := acd_tail_inj a c d a' c' d' [f] [] h'
  simp at ht

theorem stored_ne_blobList (a c d f a' c' d' : Nat) :
    serialize_stored_key a c d f ≠ serialize_blob_key a' c' d' := by
  intro h
  obtain ⟨-, -, -, ht⟩ := acd_tail_inj a c d a' c' d' [f] blobKeyPfx h
  simp [blobKeyPfx] at ht

theorem termIndex_ne_blobList (a c d a' c' d' : Nat) :
    serialize_acd_key_leb128 a c d ≠ serialize_blob_key a' c' d' := by
  intro h
  have h' : toLeb128Bytes a ++ [c] ++ toLeb128Bytes d ++ ([] : Bytes)
      = toLeb128Bytes a' ++ [c'] ++ toLeb128Bytes d' ++ blobKeyPfx := by
    rw [List.append_nil]
    exact h
  obtain ⟨-, -, -, ht⟩ := acd_tail_inj a c d a' c' d' [] blobKeyPfx h'
  simp [blobKeyPfx] at ht

theorem stored_ne_refCount (a c d f : Nat) (hs : Bytes) (hd : d < 2 ^ 32)
    (hlen : hs.length = 32) :
    serialize_stored_key a c d f ≠ blobKeyPfx ++ hs := by
  intro h
  have h' : toLeb128Bytes a ++ ([c] ++ (toLeb128Bytes d ++ [f]))
      = toLeb128Bytes 0 ++ (1 :: hs) := by
    simp only [← List.append_assoc]
    exact h
  obtain ⟨ha, h2⟩ := leb_append_inj a 0 _ _ h'
  simp only [List.singleton_append] at h2
  injection h2 with hc h3
  have hl := toLeb128Bytes_length_le_five d hd
  have hlen2 : (toLeb128Bytes d ++ [f]).length = 32 := by rw [h3, hlen]
  rw [List.length_append] at hlen2
  have hf : ([f] : Bytes).length = 1 := rfl
  omega

theorem termIndex_ne_refCount (a c d : Nat) (hs : Bytes) (hd : d < 2 ^ 32)
    (hlen : hs.length = 32) :
    serialize_acd_key_leb128 a c d ≠ blobKeyPfx ++ hs := by
  intro h
  have h' : toLeb128Bytes a ++ ([c] ++ toLeb128Bytes d)
      = toLeb128Bytes 0 ++ (1 :: hs) := by
    simp only [← List.append_assoc]
    exact h
  obtain ⟨ha, h2⟩ := leb_append_inj a 0 _ _ h'
  simp only [List.singleton_append] at h2
  injection h2 with hc h3
  have hl := toLeb128Bytes_length_le_five d hd
  have hlen2 : (toLeb128Bytes d).length = 32 := by rw [h3, hlen]
  omega

theorem blobList_ne_refCount (a c d : Nat) (hs : Bytes) (hd : d < 2 ^ 32)
    (hlen : hs.length = 32) :
    serialize_blob_key a c d ≠ blobKeyPfx ++ hs := by
  intro h
  have h' : toLeb128Bytes a ++ ([c] ++ (toLeb128Bytes d ++ blobKeyPfx))
      = toLeb128Bytes 0 ++ (1 :: hs) := by
    simp only [← List.append_assoc]
    exact h
  obtain ⟨ha, h2⟩ := leb_append_inj a 0 _ _ h'
  simp only [List.singleton_append] at h2
  injection h2 with hc h3
  have hl := toLeb128Bytes_length_le_five d hd
  have hlen2 : (toLeb128Bytes d ++ blobKeyPfx).length = 32 := by rw [h3, hlen]
  rw [List.length_append] at hlen2
  have hb : blobKeyPfx.length = 2 := rfl
  omega

theorem stored_ne_lastTermId (a c d f : Nat) :
    serialize_stored_key a c d f ≠ lastTermIdKey := by
  intro h
  have hlen := congrArg List.length h
  have p1 := toLeb128Go_length_pos a a
  have p2 := toLeb128Go_length_pos d d
  simp only [serialize_stored_key, toLeb128Bytes, lastTermIdKey, List.length_append,
    List.length_cons, List.length_nil] at hlen
  omega

theorem termIndex_ne_lastTermId (a c d : Nat) :
    serialize_acd_key_leb128 a c d ≠ lastTermIdKey := by
  intro h
  have hlen := congrArg List.length h
  have p1 := toLeb128Go_length_pos a a
  have p2 := toLeb128Go_length_pos d d
  simp only [serialize_acd_key_leb128, toLeb128Bytes, lastTermIdKey, List.length_append,
    List.length_cons, List.length_nil] at hlen
  omega

theorem blobList_ne_lastTermId (a c d : Nat) :
    serialize_blob_key a c d ≠ lastTermIdKey := by
  intro h
  have hlen := congrArg List.length h
  have p1 := toLeb128Go_length_pos a a
  have p2 := toLeb128Go_length_pos d d
  simp only [serialize_blob_key, toLeb128Bytes, lastTermIdKey, blobKeyPfx,
    List.length_append, List.length_cons, List.length_nil] at hlen
  omega

theorem refCount_ne_lastTermId (hs : Bytes) (hlen : hs.length = 32) :
    blobKeyPfx ++ hs ≠ lastTermIdKey := by
  intro h
  have h2 := congrArg List.length h
  rw [List.length_append] at h2
  have hb : blobKeyPfx.length = 2 := rfl
  have hl : lastTermIdKey.length = 2 := rfl
  omega

/-- An abstract description of one key of some family of the `values`
column family (§6.1): stored field values and ORM snapshots share the
`serialize_stored_key` layout, term-index rows use
`serialize_acd_key_leb128`, document blob-lists use `serialize_blob_key`,
blob reference counters use `BLOB_KEY ‖ hash`, and the global term-id
counter lives at `LAST_TERM_ID_KEY`. -/
inductive ValuesKeySpec where
  | stored (account collection document field : Nat)
  | termIndex (account collection document : Nat)
  | blobList (account collection document : Nat)
  | refCount (hash : Bytes)
  | lastTermId
deriving DecidableEq, Repr

/-- The family tag of a `ValuesKeySpec`, used only to tell the five
families apart. -/
def ValuesKeySpec.family : ValuesKeySpec → Nat
  | .stored _ _ _ _ => 0
  | .termIndex _ _ _ => 1
  | .blobList _ _ _ => 2
  | .refCount _ => 3
  | .lastTermId => 4

/-- Serialize a values-CF key through the family's serializer from
`serialize.rs`. -/
def ValuesKeySpec.serialize : ValuesKeySpec → Bytes
  | .stored a c d f => serialize_stored_key a c d f
  | .termIndex a c d => serialize_acd_key_leb128 a c d
  | .blobList a c d => serialize_blob_key a c d
  | .refCount h => blobKeyPfx ++ h
  | .lastTermId => lastTermIdKey

/-- Well-formedness of the parameters: document ids are `u32`
(`DocumentId = u32` in `store/src/lib.rs`) and blob hashes are 32 bytes. -/
def ValuesKeySpec.wf : ValuesKeySpec → Prop
  | .stored _ _ d _ => d < 2 ^ 32
  | .termIndex _ _ d => d < 2 ^ 32
  | .blobList _ _ d => d < 2 ^ 32
  | .refCount h => h.length = 32
  | .lastTermId => True

theorem valuesKeySpec_no_alias (v1 v2 : ValuesKeySpec) (h1 : v1.wf) (h2 : v2.wf)
    (hfam : v1.family ≠ v2.family) : v1.serialize ≠ v2.serialize := by
  cases v1 with
  | stored a c d f =>
    cases v2 with
    | stored a' c' d' f' => exact absurd rfl hfam
    | termIndex a' c' d' => exact stored_ne_termIndex a c d f a' c' d'
    | blobList a' c' d' => exact stored_ne_blobList a c d f a' c' d'
    | refCount hs => exact stored_ne_refCount a c d f hs h1 h2
    | lastTermId => exact stored_ne_lastTermId a c d f
  | termIndex a c d =>
    cases v2 with
    | stored a' c' d' f' => exact (stored_ne_termIndex a' c' d' f' a c d).symm
    | termIndex a' c' d' => exact absurd rfl hfam
    | blobList a' c' d' => exact termIndex_ne_blobList a c d a' c' d'
    | refCount hs => exact termIndex_ne_refCount a c d hs h1 h2
    | lastTermId => exact termIndex_ne_lastTermId a c d
  | blobList a c d =>
    cases v2 with
    | stored a' c' d' f' => exact (stored_ne_blobList a' c' d' f' a c d).symm
    | termIndex a' c' d' => exact (termIndex_ne_blobList a' c' d' a c d).symm
    | blobList a' c' d' => exact absurd rfl hfam
    | refCount hs => exact blobList_ne_refCount a c d hs h1 h2
    | lastTermId => exact blobList_ne_lastTermId a c d
  | refCount hs =>
    cases v2 with
    | stored a' c' d' f' => exact (stored_ne_refCount a' c' d' f' hs h2 h1).symm
    | termIndex a' c' d' => exact (termIndex_ne_refCount a' c' d' hs h2 h1).symm
    | blobList a' c' d' => exact (blobList_ne_refCount a' c' d' hs h2 h1).symm
    | refCount hs' => exact absurd rfl hfam
    | lastTermId => exact refCount_ne_lastTermId hs h1
  | lastTermId =>
    cases v2 with
    | stored a' c' d' f' => exact (stored_ne_lastTermId a' c' d' f').symm
    | termIndex a' c' d' => exact (termIndex_ne_lastTermId a' c' d').symm
    | blobList a' c' d' => exact (blobList_ne_lastTermId a' c' d').symm
    | refCount hs' => exact (refCount_ne_lastTermId hs' h2).symm
    | lastTermId => exact absurd rfl hfam

theorem temp_blob_key_length_le (a h t : Nat) (ha : a < 2 ^ 32) (hh : h < 2 ^ 64)
    (ht : t < 2 ^ 64) :
    (serialize_temporary_blob_key a h t).length ≤ 27 := by
  have l1 := toLeb128Bytes_length_le_five a ha
  have l2 := toLeb128Bytes_length_le_ten h hh
  have l3 := toLeb128Bytes_length_le_ten t ht
  have hp : tempBlobKeyPfx.length = 2 := rfl
  simp only [serialize_temporary_blob_key, List.length_append]
  omega

/-- A 32-byte content-hash payload key is longer than any well-formed
temporary-blob key (at most `2 + 10 + 10 + 5 = 27` bytes). -/
theorem payload_ne_tempBlob (hs : Bytes) (a h t : Nat) (hlen : hs.length = 32)
    (ha : a < 2 ^ 32) (hh : h < 2 ^ 64) (ht : t < 2 ^ 64) :
    hs ≠ serialize_temporary_blob_key a h t := by
  intro heq
  have hl := temp_blob_key_length_le a h t ha hh ht
  rw [heq] at hlen
  omega

/-- An abstract description of one key of the two families of the `blobs`
column family (§6.1): content-addressed blob payloads, keyed by their
32-byte content hash, and temporary upload blobs keyed by
`serialize_temporary_blob_key`. -/
inductive BlobsKeySpec where
  | payload (hash : Bytes)
  | tempBlob (account hash timestamp : Nat)
deriving DecidableEq, Repr

/-- The family tag of a `BlobsKeySpec`. -/
def BlobsKeySpec.family : BlobsKeySpec → Nat
  | .payload _ => 0
  | .tempBlob _ _ _ => 1

/-- Serialize a blobs-CF key through the family's serializer. -/
def BlobsKeySpec.serialize : BlobsKeySpec → Bytes
  | .payload h => h
  | .tempBlob a h t => serialize_temporary_blob_key a h t

/-- Well-formedness: payload hashes are 32 bytes; temporary-blob
parameters fit their Rust integer types (`AccountId = u32`, hash and
timestamp `u64`). -/
def BlobsKeySpec.wf : BlobsKeySpec → Prop
  | .payload h => h.length = 32
  | .tempBlob a h t => a < 2 ^ 32 ∧ h < 2 ^ 64 ∧ t < 2 ^ 64

theorem blobsKeySpec_no_alias (b1 b2 : BlobsKeySpec) (h1 : b1.wf) (h2 : b2.wf)
    (hfam : b1.family ≠ b2.family) : b1.serialize ≠ b2.serialize := by
  cases b1 with
  | payload hs =>
    cases b2 with
    | payload hs' => exact absurd rfl hfam
    | tempBlob a h t => exact payload_ne_tempBlob hs a h t h1 h2.1 h2.2.1 h2.2.2
  | tempBlob a h t =>
    cases b2 with
    | payload hs' => exact (payload_ne_tempBlob hs' a h t h2 h1.1 h1.2.1 h1.2.2).symm
    | tempBlob a' h' t' => exact absurd rfl hfam

/-- Claim C8: within each column family, keys of two distinct key families
are never byte-equal. In `bitmaps`, every key ends in its family
discriminator byte (`BM_TEXT = 0` through `BM_FREED_IDS = 8`); in `logs`,
a changelog key (13 bytes) never equals a Raft-log key (16 bytes); in
`values`, the LEB128 id prefixes are self-delimiting, so well-formed
stored-value / ORM-snapshot keys, term-index keys, document blob-list
keys, blob reference-counter keys and the term-id counter key never
collide; and in `blobs`, a 32-byte content-hash payload key is longer
than any well-formed temporary-blob key. -/
theorem c8_key_families_never_alias :
    (∀ s1 s2 : BmKeySpec, s1.family ≠ s2.family → s1.serialize ≠ s2.serialize) ∧
    (∀ a c id t i, serialize_changelog_key a c id ≠ serializeRaftKey t i) ∧
    (∀ v1 v2 : ValuesKeySpec, v1.wf → v2.wf → v1.family ≠ v2.family →
      v1.serialize ≠ v2.serialize) ∧
    (∀ b1 b2 : BlobsKeySpec, b1.wf → b2.wf → b1.family ≠ b2.family →
      b1.serialize ≠ b2.serialize) := by
  refine ⟨?_, ?_, valuesKeySpec_no_alias, blobsKeySpec_no_alias⟩
  · intro s1 s2 hfam heq
    apply hfam
    have h1 := bmKeySpec_getLast s1
    have h2 := bmKeySpec_getLast s2
    rw [heq, h2] at h1
    exact (Option.some_injective _ h1).symm
  · intro a c id t i heq
    have h1 := changelog_key_length a c id
    rw [heq, raft_key_length] at h1
    norm_num at h1

/-- Witness for C8 at concrete inputs: the `USED_IDS` and `FREED_IDS` keys
of (account 1, collection 2) differ, a concrete changelog key differs from
a concrete Raft-log key, a concrete stored-value key differs from a
concrete term-index key, and a concrete 32-byte payload key differs from a
concrete temporary-blob key. -/
theorem c8_key_families_never_alias_witness :
    BmKeySpec.serialize (.usedIds 1 2) ≠ BmKeySpec.serialize (.freedIds 1 2) ∧
    serialize_changelog_key 1 2 3 ≠ serializeRaftKey 4 5 ∧
    ValuesKeySpec.serialize (.stored 0 1 2 3) ≠ ValuesKeySpec.serialize (.termIndex 0 1 2) ∧
    BlobsKeySpec.serialize (.payload (List.replicate 32 7)) ≠
      BlobsKeySpec.serialize (.tempBlob 1 2 3) :=
  ⟨c8_key_families_never_alias.1 (.usedIds 1 2) (.freedIds 1 2) (by decide),
   c8_key_families_never_alias.2.1 1 2 3 4 5,
   c8_key_families_never_alias.2.2.1 (.stored 0 1 2 3) (.termIndex 0 1 2)
     (show (2 : Nat) < 2 ^ 32 by decide) (show (2 : Nat) < 2 ^ 32 by decide)
     (by decide),
   c8_key_families_never_alias.2.2.2 (.payload (List.replicate 32 7)) (.tempBlob 1 2 3)
     (show (List.replicate 32 7).length = 32 from rfl)
     (show (1 : Nat) < 2 ^ 32 ∧ (2 : Nat) < 2 ^ 64 ∧ (3 : Nat) < 2 ^ 64 by decide)
     (by decide)⟩

/-! ## Changelog `Change` serialization (`components/store/src/write/batch.rs`)

`Change` holds the four JMAP-id sets of one changelog entry. The Rust
struct stores them as `AHashSet`s; the model carries each set in its
iteration order as a list. -/

/-- `Change` from `write/batch.rs`. -/
structure Change where
  inserts : List Nat
  updates : List Nat
  child_updates : List Nat
  deletes : List Nat
deriving DecidableEq, Repr

/-- `Change::ENTRY`. -/
def Change.entryByte : Nat := 0

/-- `Change::SNAPSHOT`. -/
def Change.snapshotByte : Nat := 1

/-- `Change::serialize`: push the ENTRY byte, the four LEB128 list lengths,
then every id of the four lists in order, each LEB128-encoded. -/
def Change.serialize (c : Change) : Bytes :=
  let buf := [Change.entryByte]
  let buf := buf ++ toLeb128Bytes c.inserts.length
  let buf := buf ++ toLeb128Bytes c.updates.length
  let buf := buf ++ toLeb128Bytes c.child_updates.length
  let buf := buf ++ toLeb128Bytes c.deletes.length
  [c.inserts, c.updates, c.child_updates, c.deletes].foldl
    (fun buf list => list.foldl (fun buf id => buf ++ toLeb128Bytes id) buf) buf

theorem foldl_leb_append (l : List Nat) (buf : Bytes) :
    l.foldl (fun buf id => buf ++ toLeb128Bytes id) buf
      = buf ++ (l.map toLeb128Bytes).flatten := by
  induction l generalizing buf with
  | nil => simp
  | cons x xs ih => simp [ih, List.append_assoc]

/-- Claim C4: `Change::serialize` produces exactly one leading `ENTRY` byte
(0), then the four LEB128 counts of inserts, updates, child_updates and
deletes in that order, then the LEB128-encoded ids of the four lists in the
same order; the SNAPSHOT shape is introduced by leading byte 1. -/
theorem c4_change_serialize_layout (c : Change) :
    c.serialize
      = [0] ++ toLeb128Bytes c.inserts.length ++ toLeb128Bytes c.updates.length
          ++ toLeb128Bytes c.child_updates.length ++ toLeb128Bytes c.deletes.length
          ++ (c.inserts.map toLeb128Bytes).flatten
          ++ (c.updates.map toLeb128Bytes).flatten
          ++ (c.child_updates.map toLeb128Bytes).flatten
          ++ (c.deletes.map toLeb128Bytes).flatten
      ∧ Change.snapshotByte = 1 := by
  refine ⟨?_, rfl⟩
  simp only [Change.serialize, List.foldl_cons, List.foldl_nil, foldl_leb_append,
    Change.entryByte, List.append_assoc]

/-! ## Write pipeline (`components/store_rocksdb/src/insert.rs`)

The pipeline turns a list of `WriteBatch` document actions into one atomic
set of KV writes. External collaborators that are not part of this source
snapshot (the `nlp` tokenizer/stemmer, the term dictionary behind
`get_terms`, the blob content hash, the term-index compressor, the
changelog writer's value serializer and the id assigner) are carried as
oracle functions in `StoreModel`; the pipeline logic itself is translated
from `insert.rs`. -/

/-- `nlp::Language`; the claims only need `Unknown`, `English` and the fact
that other languages exist. -/
inductive Language where
  | unknown
  | english
  | other (code : Nat)
deriving DecidableEq, Repr

/-- One term produced by `get_terms`: the exact term id and the stemmed
term id. -/
structure Term where
  id : Nat
  idStemmed : Nat
deriving DecidableEq, Repr

/-- `FieldOptions` from `components/store/src/batch.rs`. -/
inductive FieldOptions where
  | none
  | store
  | sort
  | storeAndSort
  | storeAsBlob (idx : Nat)
  | clear
deriving DecidableEq, Repr

/-- `Text::Full` payload: text plus its declared language. -/
structure FullText where
  text : Bytes
  language : Language
deriving DecidableEq, Repr

/-- `Text` from the store's field module: `Default | Keyword | Tokenized |
Full`. -/
inductive TextValue where
  | default (t : Bytes)
  | keyword (t : Bytes)
  | tokenized (t : Bytes)
  | full (ft : FullText)
deriving DecidableEq, Repr

/-- A field mutation: field id, payload and options. -/
structure Field (α : Type) where
  field : Nat
  value : α
  options : FieldOptions
deriving DecidableEq, Repr

/-- `UpdateField` as matched by `update_document` in `insert.rs`. Floats
are carried as their 8-byte IEEE bit pattern (a `u64` value), since the
pipeline only moves their bytes. -/
inductive UpdateField where
  | text (f : Field TextValue)
  | tag (f : Field Tag)
  | binary (f : Field Bytes)
  | integer (f : Field Nat)
  | longInteger (f : Field Nat)
  | float (f : Field Nat)
deriving DecidableEq, Repr

/-- `LogAction` as matched in `update_documents`. -/
inductive LogAction where
  | insert (id : Nat)
  | update (id : Nat)
  | delete (id : Nat)
  | move (oldId id : Nat)
deriving DecidableEq, Repr

/-- `AssignedDocumentId` (rocksdb store): a reused freed id or a newly
allocated one. -/
inductive AssignedDocumentId where
  | freed (id : Nat)
  | new (id : Nat)
deriving DecidableEq, Repr

/-- `WriteAction` as matched in `update_documents`. -/
inductive WriteAction where
  | insert (id : AssignedDocumentId)
  | update (id : Nat)
  | delete (id : Nat)
deriving DecidableEq, Repr

/-- Modelled from the spec and from the use sites in `insert.rs`: one
`WriteBatch` (the struct itself lives in `store::batch`, which is not part
of this snapshot): collection, default language, the document action, the
optional pre-assigned changelog id, the log action and the queued field
operations. -/
structure WriteBatch where
  collection : Nat
  defaultLanguage : Language
  action : WriteAction
  logId : Option Nat
  logAction : LogAction
  fields : List UpdateField
deriving DecidableEq, Repr

/-- A single KV mutation queued in the rocksdb write batch, tagged by
column family. -/
inductive Op where
  | putValues (key value : Bytes)
  | deleteValues (key : Bytes)
  | putIndexes (key value : Bytes)
  | deleteIndexes (key : Bytes)
  | mergeValues (key value : Bytes)
  | putLog (key value : Bytes)
deriving DecidableEq, Repr

/-- The in-batch bitmap aggregation `bitmap_list: HashMap<Vec<u8>,
HashMap<DocumentId, bool>>`, modelled as nested association lists. -/
abbrev BitmapList := List (Bytes × List (Nat × Bool))

/-- `HashMap::insert` on the inner document-id map: replace an existing
binding in place, else append. -/
def mapPut (m : List (Nat × Bool)) (d : Nat) (v : Bool) : List (Nat × Bool) :=
  match m with
  | [] => [(d, v)]
  | (d2, v2) :: rest => if d2 = d then (d, v) :: rest else (d2, v2) :: mapPut rest d v

/-- `bitmap_list.entry(key).or_insert_with(HashMap::new).insert(doc, v)`. -/
def bmInsert (bl : BitmapList) (k : Bytes) (d : Nat) (v : Bool) : BitmapList :=
  match bl with
  | [] => [(k, [(d, v)])]
  | (k2, m) :: rest =>
    if k2 = k then (k2, mapPut m d v) :: rest else (k2, m) :: bmInsert rest k d v

/-- Look up the pending polarity of document `d` under bitmap key `k`. -/
def bmLookup (bl : BitmapList) (k : Bytes) (d : Nat) : Option Bool :=
  match bl with
  | [] => Option.none
  | (k2, m) :: rest =>
    if k2 = k then
      match m.lookup d with
      | Option.some v => Option.some v
      | Option.none => Option.none
    else bmLookup rest k d

/-- One item queued in `TermIndexBuilder::add_item(field, part_id, terms)`. -/
structure TermIndexItem where
  field : Nat
  partId : Nat
  terms : List Term
deriving DecidableEq, Repr

/-- The changelog accumulator `ChangeLogWriter` as used by
`update_documents` (only its `inserts`, `updates` and `deletes` lists are
touched there; `changelog.rs` is not part of this snapshot). -/
structure ChangeLogWriter where
  inserts : List Nat
  updates : List Nat
  deletes : List Nat
deriving DecidableEq, Repr

/-- `ChangeLogWriter::new()`. -/
def ChangeLogWriter.new : ChangeLogWriter := ⟨[], [], []⟩

/-- Oracles for the collaborators of `update_documents` that live outside
this source snapshot. `tokenize lang t` is the word stream of
`TokenIterator::new(t, lang, false)`; `getTerms lang t` is
`get_terms(TokenIterator::new(t, lang, true))`; `hashBlob` the content
hash behind `blob_to_key`; `dbValuesGet` point reads of the `values`
column family; `assignChangeId` the per-(account, collection) changelog id
assigner; `serializeChangeLog` the changelog value serializer. -/
structure StoreModel where
  tokenize : Language → Bytes → List Bytes
  getTerms : Language → Bytes → List Term
  compressTermIndex : List TermIndexItem → Bytes
  hashBlob : Bytes → Bytes
  dbValuesGet : Bytes → Option Bytes
  assignChangeId : Nat → Nat → Nat
  serializeChangeLog : ChangeLogWriter → Bytes

/-- `StoreError` cases reachable from the write pipeline. -/
inductive StoreErr where
  | internalError (msg : String)
  | dataCorruption
deriving DecidableEq, Repr

/-- The mutable state threaded through `update_documents`: the rocksdb
write batch in order, the aggregated bitmap list, and the blobs persisted
through `store_blob`. -/
structure DocState where
  ops : List Op
  bitmaps : BitmapList
  storedBlobs : List (Bytes × Bytes)
deriving DecidableEq, Repr

def DocState.empty : DocState := ⟨[], [], []⟩

/-- One iteration of the `Text::Tokenized` loop: one `BM_TEXT` bit for the
token. -/
def tokenBitsStep (a c f d : Nat) (pol : Bool) (bm : BitmapList) (tok : Bytes) :
    BitmapList :=
  bmInsert bm (serialize_bm_text_key a c f tok) d pol

/-- The `Text::Tokenized` loop: one `BM_TEXT` bit per token. -/
def insertTokenBits (a c f d : Nat) (pol : Bool) (bm : BitmapList)
    (tokens : List Bytes) : BitmapList :=
  tokens.foldl (tokenBitsStep a c f d pol) bm

/-- One iteration of the `Text::Full` loop: a `BM_TERM_EXACT` bit for the
term, plus a `BM_TERM_STEMMED` bit when the stemmed id differs from the
exact id. -/
def termBitsStep (a c f d : Nat) (pol : Bool) (bm : BitmapList) (term : Term) :
    BitmapList :=
  if term.idStemmed ≠ term.id then
    bmInsert (bmInsert bm (serialize_bm_term_key a c f term.id true) d pol)
      (serialize_bm_term_key a c f term.idStemmed false) d pol
  else bmInsert bm (serialize_bm_term_key a c f term.id true) d pol

/-- The `Text::Full` loop over all produced terms. -/
def insertTermBits (a c f d : Nat) (pol : Bool) (bm : BitmapList)
    (terms : List Term) : BitmapList :=
  terms.foldl (termBitsStep a c f d pol) bm

/-- The destructuring of `t.get_options()` at the top of the
`UpdateField::Text` arm: `(is_stored, is_sorted, is_clear, blob_index)`. -/
def textOptions : FieldOptions → Bool × Bool × Bool × Option Nat
  | .none => (false, false, false, Option.none)
  | .store => (true, false, false, Option.none)
  | .sort => (false, true, false, Option.none)
  | .storeAndSort => (true, true, false, Option.none)
  | .storeAsBlob idx => (false, false, false, Option.some idx)
  | .clear => (false, false, true, Option.none)

/-- Intermediate state of the field loop in `update_document`: the KV
state, the `TermIndexBuilder` items and the accumulated `blob_fields`. -/
structure FieldLoopState where
  st : DocState
  termIndex : List TermIndexItem
  blobFields : List (Nat × Bytes)
deriving DecidableEq, Repr

/-- The shared shape of the `Integer`, `LongInteger` and `Float` arms:
store the little-endian value when `Store`, index the big-endian value when
`Sort`, and delete both rows when `Clear`. -/
def numericOps (width account collection documentId fieldId value : Nat)
    (options : FieldOptions) : List Op :=
  if options ≠ FieldOptions.clear then
    (if options = FieldOptions.store ∨ options = FieldOptions.storeAndSort then
        [Op.putValues (serialize_stored_key account collection documentId fieldId)
          (leBytes width value)]
      else [])
      ++ (if options = FieldOptions.sort ∨ options = FieldOptions.storeAndSort then
        [Op.putIndexes (serialize_index_key account collection documentId fieldId
          (beBytes width value)) []]
      else [])
  else
    [Op.deleteValues (serialize_stored_key account collection documentId fieldId),
      Op.deleteIndexes (serialize_index_key account collection documentId fieldId
        (beBytes width value))]

/-- One iteration of the `for field in fields` loop of `update_document`. -/
def fieldStep (M : StoreModel) (account collection documentId : Nat)
    (defaultLanguage : Language) (acc : FieldLoopState) (field : UpdateField) :
    FieldLoopState :=
  match field with
  | .text t =>
    let (isStored, isSorted, isClear, blobIndex) := textOptions t.options
    let (bitmaps, termIndex, text) :=
      match t.value with
      | .default txt => (acc.st.bitmaps, acc.termIndex, txt)
      | .keyword txt =>
        (bmInsert acc.st.bitmaps (serialize_bm_text_key account collection t.field txt)
            documentId (!isClear),
          acc.termIndex, txt)
      | .tokenized txt =>
        (insertTokenBits account collection t.field documentId (!isClear) acc.st.bitmaps
            (M.tokenize Language.english txt),
          acc.termIndex, txt)
      | .full ft =>
        let terms := M.getTerms
          (if ft.language = Language.unknown then defaultLanguage else ft.language) ft.text
        if terms ≠ [] then
          (insertTermBits account collection t.field documentId (!isClear) acc.st.bitmaps terms,
            acc.termIndex ++ [(⟨t.field, blobIndex.getD 0, terms⟩ : TermIndexItem)], ft.text)
        else (acc.st.bitmaps, acc.termIndex, ft.text)
    let ops :=
      match blobIndex with
      | Option.some _ => acc.st.ops
      | Option.none =>
        if !isClear then
          acc.st.ops
            ++ (if isStored then
                  [Op.putValues (serialize_stored_key account collection documentId t.field)
                    text]
                else [])
            ++ (if isSorted then
                  [Op.putIndexes (serialize_index_key account collection documentId t.field
                    text) []]
                else [])
        else
          acc.st.ops
            ++ [Op.deleteValues (serialize_stored_key account collection documentId t.field),
                Op.deleteIndexes (serialize_index_key account collection documentId t.field
                  text)]
    let blobFields :=
      match blobIndex with
      | Option.some idx => acc.blobFields ++ [(idx, text)]
      | Option.none => acc.blobFields
    ⟨⟨ops, bitmaps, acc.st.storedBlobs⟩, termIndex, blobFields⟩
  | .tag t =>
    { acc with
      st := { acc.st with
        bitmaps := bmInsert acc.st.bitmaps
          (serialize_bm_tag_key account collection t.field t.value) documentId
          (!(t.options = FieldOptions.clear)) } }
  | .binary b =>
    match b.options with
    | .storeAsBlob idx => { acc with blobFields := acc.blobFields ++ [(idx, b.value)] }
    | _ =>
      { acc with
        st := { acc.st with
          ops := acc.st.ops
            ++ [Op.putValues (serialize_stored_key account collection documentId b.field)
                b.value] } }
  | .integer i =>
    { acc with st := { acc.st with
        ops := acc.st.ops
          ++ numericOps 4 account collection documentId i.field i.value i.options } }
  | .longInteger i =>
    { acc with st := { acc.st with
        ops := acc.st.ops
          ++ numericOps 8 account collection documentId i.field i.value i.options } }
  | .float f =>
    { acc with st := { acc.st with
        ops := acc.st.ops
          ++ numericOps 8 account collection documentId f.field f.value f.options } }

/-- The `for field in fields` loop of `update_document`. -/
def foldFields (M : StoreModel) (account collection documentId : Nat)
    (defaultLanguage : Language) (fields : List UpdateField) (st : DocState) :
    FieldLoopState :=
  fields.foldl (fieldStep M account collection documentId defaultLanguage) ⟨st, [], []⟩

/-- Insertion sort by blob index, modelling
`blob_fields.sort_unstable_by_key(|(blob_index, _)| *blob_index)` (for the
committed, dense case all keys are distinct, so stability is immaterial). -/
def sortBlobInsert (p : Nat × Bytes) : List (Nat × Bytes) → List (Nat × Bytes)
  | [] => [p]
  | q :: rest => if p.1 ≤ q.1 then p :: q :: rest else q :: sortBlobInsert p rest

/-- Sort the accumulated `blob_fields` by blob index. -/
def sortBlobFields : List (Nat × Bytes) → List (Nat × Bytes)
  | [] => []
  | p :: rest => sortBlobInsert p (sortBlobFields rest)

/-- The dense-index validation of the blob loop, tracking
`blob_index_last`: the first index must be 0 and each subsequent index must
be the predecessor plus one. -/
def denseCheck : Option Nat → List Nat → Bool
  | _, [] => true
  | Option.none, i :: rest => if i = 0 then denseCheck (Option.some i) rest else false
  | Option.some last, i :: rest =>
    if last + 1 = i then denseCheck (Option.some i) rest else false

/-- The `for (blob_index, blob) in &blob_fields` loop over the already
sorted list: validate density, persist each blob, merge `+1` into its
reference counter, accumulate the key suffixes, and finally write the
document's blob-list row. -/
def processBlobsGo (M : StoreModel) (account collection documentId : Nat) :
    Option Nat → Bytes → List (Nat × Bytes) → DocState → Except StoreErr DocState
  | _, entries, [], st =>
    Except.ok { st with
      ops := st.ops
        ++ [Op.putValues (serialize_blob_key account collection documentId) entries] }
  | last, entries, (idx, blob) :: rest, st =>
    let bad : Bool :=
      match last with
      | Option.some l => l + 1 ≠ idx
      | Option.none => idx ≠ 0
    if bad then
      Except.error (StoreErr.internalError
        (match last with
          | Option.some _ => "Blob indexes are not sequential"
          | Option.none => "First blob index is not 0"))
    else
      let blobKey := blobKeyPfx ++ M.hashBlob blob
      processBlobsGo M account collection documentId (Option.some idx)
        (entries ++ blobKey.drop blobKeyPfx.length) rest
        { st with
          storedBlobs := st.storedBlobs ++ [(blobKey, blob)],
          ops := st.ops ++ [Op.mergeValues blobKey (i64le 1)] }

/-- The `if !term_index.is_empty()` step of `update_document`: store the
compressed term index under the document's `acd` key when non-empty. -/
def withTermIndexOp (M : StoreModel) (account collection documentId : Nat)
    (acc : FieldLoopState) : DocState :=
  if acc.termIndex ≠ [] then
    { acc.st with
      ops := acc.st.ops
        ++ [Op.putValues (serialize_acd_key_leb128 account collection documentId)
            (M.compressTermIndex acc.termIndex)] }
  else acc.st

/-- The tail of `update_document`: store the compressed term index when
non-empty, then process external blobs when present. -/
def updateDocument (M : StoreModel) (account collection documentId : Nat)
    (defaultLanguage : Language) (fields : List UpdateField) (st : DocState) :
    Except StoreErr DocState :=
  let acc := foldFields M account collection documentId defaultLanguage fields st
  if acc.blobFields ≠ [] then
    processBlobsGo M account collection documentId Option.none []
      (sortBlobFields acc.blobFields) (withTermIndexOp M account collection documentId acc)
  else Except.ok (withTermIndexOp M account collection documentId acc)

/-- Modelled from the spec: `serialize_blob_keys_from_value`
(`store_rocksdb`'s blob module is not part of this snapshot). The spec
fixes the blob-list row as the concatenated blob-key suffixes, each a
fixed-width content hash (32 bytes); parsing re-adds the `BLOB_KEY`
prefix and fails when the row is not a whole number of suffixes. -/
def blobChunksGo : Nat → Bytes → Option (List Bytes)
  | _, [] => Option.some []
  | 0, _ :: _ => Option.none
  | fuel + 1, v =>
    if 32 ≤ v.length then
      match blobChunksGo fuel (v.drop 32) with
      | Option.some rest => Option.some (v.take 32 :: rest)
      | Option.none => Option.none
    else Option.none

/-- Split a blob-list row into its 32-byte suffix chunks; the fuel only
bounds the recursion depth and the row length is always sufficient. -/
def blobKeySuffixes (v : Bytes) : Option (List Bytes) :=
  blobChunksGo v.length v

/-- Modelled from the spec: `serialize_blob_keys_from_value` returns the
full blob reference-counter keys listed in a blob-list row. -/
def serialize_blob_keys_from_value (v : Bytes) : Option (List Bytes) :=
  (blobKeySuffixes v).map (List.map (fun sfx => blobKeyPfx ++ sfx))

/-- The changelog accumulation `change_log_list`, keyed by
(account, collection, change id). -/
abbrev ChangeLogList := List ((Nat × Nat × Nat) × ChangeLogWriter)

/-- The `match batch.log_action` block: push the logged ids onto the
entry's id lists. -/
def applyLogAction (w : ChangeLogWriter) : LogAction → ChangeLogWriter
  | .insert id => { w with inserts := w.inserts ++ [id] }
  | .update id => { w with updates := w.updates ++ [id] }
  | .delete id => { w with deletes := w.deletes ++ [id] }
  | .move oldId id =>
    { w with inserts := w.inserts ++ [id], deletes := w.deletes ++ [oldId] }

/-- `change_log_list.entry(key).or_insert_with(ChangeLogWriter::new)`
followed by the log-action push. -/
def clApply (cl : ChangeLogList) (key : Nat × Nat × Nat) (act : LogAction) :
    ChangeLogList :=
  match cl with
  | [] => [(key, applyLogAction ChangeLogWriter.new act)]
  | (k2, w) :: rest =>
    if k2 = key then (k2, applyLogAction w act) :: rest
    else (k2, w) :: clApply rest key act

/-- One `for batch in batches` iteration of `update_documents`: dispatch on
the write action, then record the batch's log action under its change id. -/
def batchStep (M : StoreModel) (account : Nat) (st : DocState) (cl : ChangeLogList)
    (batch : WriteBatch) : Except StoreErr (DocState × ChangeLogList) :=
  let afterAction : Except StoreErr DocState :=
    match batch.action with
    | .insert assigned =>
      let (st1, documentId) :=
        match assigned with
        | .freed id =>
          ({ st with
              bitmaps := bmInsert st.bitmaps
                (serialize_bm_internal account batch.collection BM_FREED_IDS) id false },
            id)
        | .new id => (st, id)
      let st2 := { st1 with
        bitmaps := bmInsert st1.bitmaps
          (serialize_bm_internal account batch.collection BM_USED_IDS) documentId true }
      updateDocument M account batch.collection documentId batch.defaultLanguage
        batch.fields st2
    | .update documentId =>
      updateDocument M account batch.collection documentId batch.defaultLanguage
        batch.fields st
    | .delete documentId =>
      let withBlobs : Except StoreErr DocState :=
        match M.dbValuesGet (serialize_blob_key account batch.collection documentId) with
        | Option.some row =>
          match serialize_blob_keys_from_value row with
          | Option.some keys =>
            Except.ok { st with
              ops := st.ops ++ keys.map (fun k => Op.mergeValues k (i64le (-1))) }
          | Option.none => Except.error StoreErr.dataCorruption
        | Option.none => Except.ok st
      match withBlobs with
      | Except.error e => Except.error e
      | Except.ok st1 =>
        Except.ok { st1 with
          bitmaps := bmInsert st1.bitmaps
            (serialize_bm_internal account batch.collection BM_TOMBSTONED_IDS)
            documentId true }
  match afterAction with
  | Except.error e => Except.error e
  | Except.ok st3 =>
    let changeId :=
      match batch.logId with
      | Option.some id => id
      | Option.none => M.assignChangeId account batch.collection
    Except.ok (st3, clApply cl (account, batch.collection, changeId) batch.logAction)

/-- The batch loop of `update_documents`. -/
def batchLoop (M : StoreModel) (account : Nat) :
    List WriteBatch → DocState → ChangeLogList →
    Except StoreErr (DocState × ChangeLogList)
  | [], st, cl => Except.ok (st, cl)
  | b :: rest, st, cl =>
    match batchStep M account st cl b with
    | Except.error e => Except.error e
    | Except.ok (st2, cl2) => batchLoop M account rest st2 cl2

/-- `update_documents`: run every batch, then append one changelog `put`
per accumulated (account, collection, change id) entry. The aggregated
bitmap list stays in the state; the rocksdb layer turns each of its
entries into a single `set_clear_bits` merge. On success all queued
mutations form one atomic write; on error nothing is written. -/
def updateDocuments (M : StoreModel) (account : Nat) (batches : List WriteBatch) :
    Except StoreErr DocState :=
  match batchLoop M account batches DocState.empty [] with
  | Except.error e => Except.error e
  | Except.ok (st, cl) =>
    Except.ok { st with
      ops := st.ops
        ++ cl.map (fun e =>
          Op.putLog (serialize_changelog_key e.1.1 e.1.2.1 e.1.2.2)
            (M.serializeChangeLog e.2)) }

/-! ### Bitmap-aggregation lemmas -/

theorem mapPut_lookup_self (m : List (Nat × Bool)) (d : Nat) (v : Bool) :
    (mapPut m d v).lookup d = some v := by
  induction m with
  | nil => simp [mapPut, List.lookup]
  | cons p rest ih =>
    obtain ⟨d2, v2⟩ := p
    by_cases h : d2 = d
    · simp [mapPut, h, List.lookup]
    · have hb : (d == d2) = false := beq_eq_false_iff_ne.mpr (Ne.symm h)
      simp [mapPut, h, List.lookup, hb, ih]

theorem bmInsert_lookup_self (bl : BitmapList) (k : Bytes) (d : Nat) (v : Bool) :
    bmLookup (bmInsert bl k d v) k d = some v := by
  induction bl with
  | nil => simp [bmInsert, bmLookup, mapPut_lookup_self, List.lookup]
  | cons p rest ih =>
    obtain ⟨k2, m⟩ := p
    by_cases h : k2 = k
    · simp [bmInsert, h, bmLookup, mapPut_lookup_self]
    · simp [bmInsert, h, bmLookup, ih]

theorem bmInsert_lookup_ne (bl : BitmapList) (k2 k : Bytes) (d2 d : Nat) (v : Bool)
    (hk : k2 ≠ k) : bmLookup (bmInsert bl k2 d2 v) k d = bmLookup bl k d := by
  induction bl with
  | nil => simp [bmInsert, bmLookup, hk]
  | cons p rest ih =>
    obtain ⟨k3, m⟩ := p
    by_cases h : k3 = k2
    · subst h
      simp [bmInsert, bmLookup, hk]
    · simp [bmInsert, h, bmLookup, ih]

theorem ne_of_getLast_ne {xs ys : Bytes} {a b : Nat}
    (hx : xs.getLast? = some a) (hy : ys.getLast? = some b) (hab : a ≠ b) :
    xs ≠ ys := by
  intro h
  rw [h, hy] at hx
  exact hab (Option.some_injective _ hx).symm

theorem bm_text_key_getLast (a c f : Nat) (t : Bytes) :
    (serialize_bm_text_key a c f t).getLast? = some BM_TEXT := by
  simp [serialize_bm_text_key, List.getLast?_append]

theorem bm_term_key_getLast_exact (a c f id : Nat) :
    (serialize_bm_term_key a c f id true).getLast? = some BM_TERM_EXACT := by
  simp [serialize_bm_term_key, List.getLast?_append]

theorem bm_term_key_getLast_stemmed (a c f id : Nat) :
    (serialize_bm_term_key a c f id false).getLast? = some BM_TERM_STEMMED := by
  simp [serialize_bm_term_key, List.getLast?_append]

theorem bm_tag_key_getLast (a c f : Nat) (tag : Tag) :
    ∃ fam, (serialize_bm_tag_key a c f tag).getLast? = some fam ∧ fam < 6 := by
  cases tag <;>
    simp [serialize_bm_tag_key, List.getLast?_append, BM_TAG_STATIC, BM_TAG_ID,
      BM_TAG_TEXT]

theorem bm_internal_key_getLast (a c id : Nat) :
    (serialize_bm_internal a c id).getLast? = some id := by
  simp [serialize_bm_internal, List.getLast?_append]

/-- Keys of the internal bitmap families (`USED_IDS`, `TOMBSTONED_IDS`,
`FREED_IDS`) end in a byte ≥ 6 and are therefore untouched by every
text/term/tag bitmap mutation, which all end in a byte < 6. -/
def IsInternalKey (k : Bytes) : Prop :=
  ∃ fam, k.getLast? = some fam ∧ 6 ≤ fam

theorem tokenBitsStep_preserve (a c f d : Nat) (pol : Bool) (bm : BitmapList)
    (tok : Bytes) (k : Bytes) (dd : Nat) {fam : Nat}
    (hlast : k.getLast? = some fam) (hfam : 6 ≤ fam) :
    bmLookup (tokenBitsStep a c f d pol bm tok) k dd = bmLookup bm k dd := by
  rw [tokenBitsStep, bmInsert_lookup_ne]
  exact ne_of_getLast_ne (bm_text_key_getLast a c f tok) hlast
    (by simp only [BM_TEXT]; omega)

theorem insertTokenBits_preserve (a c f d : Nat) (pol : Bool) (bm : BitmapList)
    (toks : List Bytes) (k : Bytes) (dd : Nat) (hk : IsInternalKey k) :
    bmLookup (insertTokenBits a c f d pol bm toks) k dd = bmLookup bm k dd := by
  obtain ⟨fam, hlast, hfam⟩ := hk
  induction toks generalizing bm with
  | nil => rfl
  | cons t rest ih =>
    rw [insertTokenBits, List.foldl_cons, ← insertTokenBits, ih,
      tokenBitsStep_preserve a c f d pol bm t k dd hlast hfam]

theorem termBitsStep_preserve (a c f d : Nat) (pol : Bool) (bm : BitmapList)
    (t : Term) (k : Bytes) (dd : Nat) {fam : Nat}
    (hlast : k.getLast? = some fam) (hfam : 6 ≤ fam) :
    bmLookup (termBitsStep a c f d pol bm t) k dd = bmLookup bm k dd := by
  have hex : serialize_bm_term_key a c f t.id true ≠ k :=
    ne_of_getLast_ne (bm_term_key_getLast_exact a c f t.id) hlast
      (by simp only [BM_TERM_EXACT]; omega)
  have hstem : serialize_bm_term_key a c f t.idStemmed false ≠ k :=
    ne_of_getLast_ne (bm_term_key_getLast_stemmed a c f t.idStemmed) hlast
      (by simp only [BM_TERM_STEMMED]; omega)
  rw [termBitsStep]
  split
  · rw [bmInsert_lookup_ne _ _ _ _ _ _ hstem, bmInsert_lookup_ne _ _ _ _ _ _ hex]
  · rw [bmInsert_lookup_ne _ _ _ _ _ _ hex]

theorem insertTermBits_preserve (a c f d : Nat) (pol : Bool) (bm : BitmapList)
    (terms : List Term) (k : Bytes) (dd : Nat) (hk : IsInternalKey k) :
    bmLookup (insertTermBits a c f d pol bm terms) k dd = bmLookup bm k dd := by
  obtain ⟨fam, hlast, hfam⟩ := hk
  induction terms generalizing bm with
  | nil => rfl
  | cons t rest ih =>
    rw [insertTermBits, List.foldl_cons, ← insertTermBits, ih,
      termBitsStep_preserve a c f d pol bm t k dd hlast hfam]

theorem fieldStep_bitmaps_preserve (M : StoreModel) (a c d : Nat) (lang : Language)
    (acc : FieldLoopState) (f : UpdateField) (k : Bytes) (dd : Nat)
    (hk : IsInternalKey k) :
    bmLookup (fieldStep M a c d lang acc f).st.bitmaps k dd
      = bmLookup acc.st.bitmaps k dd := by
  obtain ⟨fam, hlast, hfam⟩ := hk
  cases f with
  | text t =>
    cases hv : t.value with
    | default txt => simp only [fieldStep, hv]
    | keyword txt =>
      simp only [fieldStep, hv]
      exact bmInsert_lookup_ne _ _ _ _ _ _
        (ne_of_getLast_ne (bm_text_key_getLast a c t.field txt) hlast
          (by simp only [BM_TEXT]; omega))
    | tokenized txt =>
      simp only [fieldStep, hv]
      exact insertTokenBits_preserve a c t.field d _ _ _ k dd ⟨fam, hlast, hfam⟩
    | full ft =>
      simp only [fieldStep, hv]
      generalize M.getTerms (if ft.language = Language.unknown then lang else ft.language)
        ft.text = ts
      split
      · exact insertTermBits_preserve a c t.field d _ _ _ k dd ⟨fam, hlast, hfam⟩
      · rfl
  | tag t =>
    simp only [fieldStep]
    obtain ⟨fam2, hlast2, hfam2⟩ := bm_tag_key_getLast a c t.field t.value
    exact bmInsert_lookup_ne _ _ _ _ _ _
      (ne_of_getLast_ne hlast2 hlast (by omega))
  | binary b =>
    simp only [fieldStep]
    cases b.options <;> rfl
  | integer i => rfl
  | longInteger i => rfl
  | float f => rfl

theorem foldFields_bitmaps_preserve (M : StoreModel) (a c d : Nat) (lang : Language)
    (fields : List UpdateField) (st : DocState) (k : Bytes) (dd : Nat)
    (hk : IsInternalKey k) :
    bmLookup (foldFields M a c d lang fields st).st.bitmaps k dd
      = bmLookup st.bitmaps k dd := by
  suffices h : ∀ acc : FieldLoopState,
      bmLookup (fields.foldl (fieldStep M a c d lang) acc).st.bitmaps k dd
        = bmLookup acc.st.bitmaps k dd by
    exact h ⟨st, [], []⟩
  induction fields with
  | nil => intro acc; rfl
  | cons f rest ih =>
    intro acc
    simp only [List.foldl_cons]
    rw [ih, fieldStep_bitmaps_preserve M a c d lang acc f k dd hk]

theorem processBlobsGo_bitmaps (M : StoreModel) (a c d : Nat) (last : Option Nat)
    (entries : Bytes) (bf : List (Nat × Bytes)) (st st2 : DocState)
    (h : processBlobsGo M a c d last entries bf st = Except.ok st2) :
    st2.bitmaps = st.bitmaps := by
  induction bf generalizing last entries st with
  | nil =>
    simp only [processBlobsGo] at h
    cases h
    rfl
  | cons p rest ih =>
    obtain ⟨idx, blob⟩ := p
    cases last with
    | none =>
      simp only [processBlobsGo] at h
      split at h
      · exact Except.noConfusion h
      · exact (ih _ _ _ h).trans rfl
    | some l =>
      simp only [processBlobsGo] at h
      split at h
      · exact Except.noConfusion h
      · exact (ih _ _ _ h).trans rfl

theorem withTermIndexOp_bitmaps (M : StoreModel) (a c d : Nat)
    (acc : FieldLoopState) :
    (withTermIndexOp M a c d acc).bitmaps = acc.st.bitmaps := by
  rw [withTermIndexOp]
  split <;> rfl

theorem updateDocument_bitmaps_preserve (M : StoreModel) (a c d : Nat)
    (lang : Language) (fields : List UpdateField) (st st2 : DocState) (k : Bytes)
    (dd : Nat) (hk : IsInternalKey k)
    (h : updateDocument M a c d lang fields st = Except.ok st2) :
    bmLookup st2.bitmaps k dd = bmLookup st.bitmaps k dd := by
  rw [updateDocument] at h
  split at h
  · rw [processBlobsGo_bitmaps M a c d _ _ _ _ _ h, withTermIndexOp_bitmaps]
    exact foldFields_bitmaps_preserve M a c d lang fields st k dd hk
  · cases h
    rw [withTermIndexOp_bitmaps]
    exact foldFields_bitmaps_preserve M a c d lang fields st k dd hk

/-- The `let document_id = match document_id { Freed(id) | New(id) => id }`
destructuring of the insert arm. -/
def assignedId : AssignedDocumentId → Nat
  | .freed id => id
  | .new id => id

/-- The bitmap registrations performed by the `WriteAction::Insert` arm
before the field operations run: clear the id from `FREED_IDS` when it was
a reused freed id, then add it to `USED_IDS`. -/
def insertIdBits (account collection : Nat) (assigned : AssignedDocumentId) :
    BitmapList :=
  match assigned with
  | .freed id =>
    bmInsert
      (bmInsert [] (serialize_bm_internal account collection BM_FREED_IDS) id false)
      (serialize_bm_internal account collection BM_USED_IDS) id true
  | .new id =>
    bmInsert [] (serialize_bm_internal account collection BM_USED_IDS) id true

/-- Claim C1: for a committed `WriteBatch` whose action is `Insert`, a
reused freed id has its bit cleared from the `FREED_IDS` bitmap of the
(account, collection) in the same atomic batch; in either case the id's bit
is set in the `USED_IDS` bitmap; and the document's field operations are
then applied (the committed state is exactly the result of
`update_document` on the post-registration state, followed by the batch's
changelog write). -/
theorem c1_insert_registers_ids (M : StoreModel) (account : Nat) (b : WriteBatch)
    (assigned : AssignedDocumentId) (s : DocState)
    (hact : b.action = WriteAction.insert assigned)
    (hok : updateDocuments M account [b] = Except.ok s) :
    (∀ i, assigned = AssignedDocumentId.freed i →
      bmLookup s.bitmaps (serialize_bm_internal account b.collection BM_FREED_IDS) i
        = some false) ∧
    bmLookup s.bitmaps (serialize_bm_internal account b.collection BM_USED_IDS)
      (assignedId assigned) = some true ∧
    ∃ s1,
      updateDocument M account b.collection (assignedId assigned) b.defaultLanguage
          b.fields ⟨[], insertIdBits account b.collection assigned, []⟩
        = Except.ok s1 ∧
      s.ops = s1.ops
        ++ [Op.putLog
            (serialize_changelog_key account b.collection
              (match b.logId with
                | Option.some id => id
                | Option.none => M.assignChangeId account b.collection))
            (M.serializeChangeLog (applyLogAction ChangeLogWriter.new b.logAction))] ∧
      s.bitmaps = s1.bitmaps ∧ s.storedBlobs = s1.storedBlobs := by
  rw [updateDocuments] at hok
  rw [batchLoop] at hok
  rw [batchStep, hact] at hok
  cases hud : updateDocument M account b.collection (assignedId assigned)
      b.defaultLanguage b.fields
      ⟨[], insertIdBits account b.collection assigned, []⟩ with
  | error e =>
    exfalso
    cases assigned with
    | freed id =>
      simp only [assignedId] at hud
      simp only [insertIdBits] at hud
      simp only [hud, DocState.empty] at hok
      exact Except.noConfusion hok
    | new id =>
      simp only [assignedId] at hud
      simp only [insertIdBits] at hud
      simp only [hud, DocState.empty] at hok
      exact Except.noConfusion hok
  | ok s1 =>
    have hok2 : s = { s1 with
        ops := s1.ops
          ++ [Op.putLog
              (serialize_changelog_key account b.collection
                (match b.logId with
                  | Option.some id => id
                  | Option.none => M.assignChangeId account b.collection))
              (M.serializeChangeLog (applyLogAction ChangeLogWriter.new b.logAction))] } := by
      cases assigned with
      | freed id =>
        simp only [assignedId] at hud
        simp only [insertIdBits] at hud
        simp only [hud, DocState.empty, batchLoop, clApply, List.map] at hok
        cases hok
        cases hb : b.logId <;> simp [hb]
      | new id =>
        simp only [assignedId] at hud
        simp only [insertIdBits] at hud
        simp only [hud, DocState.empty, batchLoop, clApply, List.map] at hok
        cases hok
        cases hb : b.logId <;> simp [hb]
    have husedinit :
        bmLookup (insertIdBits account b.collection assigned)
          (serialize_bm_internal account b.collection BM_USED_IDS)
          (assignedId assigned) = some true := by
      cases assigned <;> simp only [insertIdBits, assignedId] <;>
        exact bmInsert_lookup_self _ _ _ _
    have hused := updateDocument_bitmaps_preserve M account b.collection
      (assignedId assigned) b.defaultLanguage b.fields _ s1
      (serialize_bm_internal account b.collection BM_USED_IDS) (assignedId assigned)
      ⟨BM_USED_IDS, bm_internal_key_getLast _ _ _, by simp [BM_USED_IDS]⟩ hud
    refine ⟨?_, ?_, s1, rfl, ?_, ?_, ?_⟩
    · intro i hi
      subst hi
      have hfreedinit :
          bmLookup (insertIdBits account b.collection (AssignedDocumentId.freed i))
            (serialize_bm_internal account b.collection BM_FREED_IDS) i
            = some false := by
        simp only [insertIdBits]
        rw [bmInsert_lookup_ne]
        · exact bmInsert_lookup_self _ _ _ _
        · exact ne_of_getLast_ne (bm_internal_key_getLast account b.collection BM_USED_IDS)
            (bm_internal_key_getLast account b.collection BM_FREED_IDS)
            (by simp [BM_USED_IDS, BM_FREED_IDS])
      have hfreed := updateDocument_bitmaps_preserve M account b.collection
        (assignedId (AssignedDocumentId.freed i)) b.defaultLanguage b.fields _ s1
        (serialize_bm_internal account b.collection BM_FREED_IDS) i
        ⟨BM_FREED_IDS, bm_internal_key_getLast _ _ _, by simp [BM_FREED_IDS]⟩ hud
      rw [hok2]
      exact hfreed.trans hfreedinit
    · rw [hok2]
      exact hused.trans husedinit
    · rw [hok2]
    · rw [hok2]
    · rw [hok2]

/-- A concrete store model used to instantiate the pipeline theorems: one
token per text, one fixed term pair, a constant 32-byte content hash, a
blob-list row of one suffix, change id 11, and a changelog value holding
the three list lengths. -/
def sampleModel : StoreModel where
  tokenize := fun _ t => [t]
  getTerms := fun _ _ => [⟨3, 4⟩]
  compressTermIndex := fun _ => [9]
  hashBlob := fun b => List.replicate 32 (b.headD 0)
  dbValuesGet := fun _ => Option.some (List.replicate 32 5)
  assignChangeId := fun _ _ => 11
  serializeChangeLog := fun w => [w.inserts.length, w.updates.length, w.deletes.length]

/-- Witness for C1 at a concrete input: inserting a batch that reuses freed
id 3 into (account 0, collection 0) clears the freed bit, sets the used
bit, and appends the changelog write after the field operations. -/
theorem c1_insert_registers_ids_witness :
    (∀ i, AssignedDocumentId.freed 3 = AssignedDocumentId.freed i →
      bmLookup [([0, 0, 8], [(3, false)]), ([0, 0, 6], [(3, true)])]
        (serialize_bm_internal 0 0 BM_FREED_IDS) i = some false) ∧
    bmLookup [([0, 0, 8], [(3, false)]), ([0, 0, 6], [(3, true)])]
      (serialize_bm_internal 0 0 BM_USED_IDS) (assignedId (AssignedDocumentId.freed 3))
      = some true ∧
    ∃ s1,
      updateDocument sampleModel 0 0 (assignedId (AssignedDocumentId.freed 3))
          Language.english [] ⟨[], insertIdBits 0 0 (AssignedDocumentId.freed 3), []⟩
        = Except.ok s1 ∧
      [Op.putLog [0, 0, 0, 0, 0, 0, 0, 0, 0, 0, 0, 0, 11] [1, 0, 0]]
        = s1.ops
          ++ [Op.putLog (serialize_changelog_key 0 0 11)
              (sampleModel.serializeChangeLog
                (applyLogAction ChangeLogWriter.new (LogAction.insert 3)))] ∧
      ([([0, 0, 8], [(3, false)]), ([0, 0, 6], [(3, true)])] : BitmapList) = s1.bitmaps ∧
      ([] : List (Bytes × Bytes)) = s1.storedBlobs :=
  c1_insert_registers_ids sampleModel 0
    ⟨0, Language.english, WriteAction.insert (AssignedDocumentId.freed 3), Option.none,
      LogAction.insert 3, []⟩
    (AssignedDocumentId.freed 3)
    ⟨[Op.putLog [0, 0, 0, 0, 0, 0, 0, 0, 0, 0, 0, 0, 11] [1, 0, 0]],
      [([0, 0, 8], [(3, false)]), ([0, 0, 6], [(3, true)])], []⟩
    rfl rfl

/-- Claim C2: a committed `WriteBatch` whose action is `Delete` only (a)
sets the document id's bit in the `TOMBSTONED_IDS` bitmap of the
(account, collection) and (b) merges −1 into the reference counter of each
blob key listed in the document's blob-list row when that row exists;
besides the batch's changelog entry it issues no other operation: no
stored-value or secondary-index row is written or deleted and no
tag/term/text bitmap bit is touched. -/
theorem c2_delete_frame (M : StoreModel) (account : Nat) (b : WriteBatch)
    (documentId : Nat) (s : DocState)
    (hact : b.action = WriteAction.delete documentId)
    (hok : updateDocuments M account [b] = Except.ok s) :
    s.bitmaps
      = [(serialize_bm_internal account b.collection BM_TOMBSTONED_IDS,
          [(documentId, true)])] ∧
    s.storedBlobs = [] ∧
    ((∃ row keys,
        M.dbValuesGet (serialize_blob_key account b.collection documentId)
          = Option.some row ∧
        serialize_blob_keys_from_value row = Option.some keys ∧
        s.ops = keys.map (fun k => Op.mergeValues k (i64le (-1)))
          ++ [Op.putLog
              (serialize_changelog_key account b.collection
                (match b.logId with
                  | Option.some id => id
                  | Option.none => M.assignChangeId account b.collection))
              (M.serializeChangeLog (applyLogAction ChangeLogWriter.new b.logAction))]) ∨
      (M.dbValuesGet (serialize_blob_key account b.collection documentId) = Option.none ∧
        s.ops = [Op.putLog
            (serialize_changelog_key account b.collection
              (match b.logId with
                | Option.some id => id
                | Option.none => M.assignChangeId account b.collection))
            (M.serializeChangeLog (applyLogAction ChangeLogWriter.new b.logAction))])) := by
  rw [updateDocuments] at hok
  rw [batchLoop] at hok
  rw [batchStep, hact] at hok
  dsimp only at hok
  cases hrow : M.dbValuesGet (serialize_blob_key account b.collection documentId) with
  | none =>
    rw [hrow] at hok
    dsimp only at hok
    simp only [batchLoop, clApply, List.map] at hok
    cases hok
    refine ⟨rfl, rfl, Or.inr ⟨rfl, ?_⟩⟩
    simp [DocState.empty, bmInsert]
  | some row =>
    rw [hrow] at hok
    dsimp only at hok
    cases hkeys : serialize_blob_keys_from_value row with
    | none =>
      rw [hkeys] at hok
      exact Except.noConfusion hok
    | some keys =>
      rw [hkeys] at hok
      simp only [batchLoop, clApply, List.map] at hok
      cases hok
      refine ⟨rfl, rfl, Or.inl ⟨row, keys, rfl, hkeys, ?_⟩⟩
      simp [DocState.empty, bmInsert]

/-- Witness for C2 at a concrete input: deleting document 3 of
(account 0, collection 0) under `sampleModel`, whose blob-list row holds
one 32-byte suffix, produces exactly one tombstone bit, one −1 reference
merge and the changelog write. -/
theorem c2_delete_frame_witness :
    (DocState.mk
        [Op.mergeValues ([0, 1] ++ List.replicate 32 5) (i64le (-1)),
          Op.putLog [0, 0, 0, 0, 0, 0, 0, 0, 0, 0, 0, 0, 7] [0, 0, 1]]
        [([0, 0, 7], [(3, true)])] []).bitmaps
      = [(serialize_bm_internal 0 0 BM_TOMBSTONED_IDS, [(3, true)])] ∧
    (DocState.mk
        [Op.mergeValues ([0, 1] ++ List.replicate 32 5) (i64le (-1)),
          Op.putLog [0, 0, 0, 0, 0, 0, 0, 0, 0, 0, 0, 0, 7] [0, 0, 1]]
        [([0, 0, 7], [(3, true)])] []).storedBlobs = [] ∧
    ((∃ row keys,
        sampleModel.dbValuesGet (serialize_blob_key 0 0 3) = Option.some row ∧
        serialize_blob_keys_from_value row = Option.some keys ∧
        (DocState.mk
            [Op.mergeValues ([0, 1] ++ List.replicate 32 5) (i64le (-1)),
              Op.putLog [0, 0, 0, 0, 0, 0, 0, 0, 0, 0, 0, 0, 7] [0, 0, 1]]
            [([0, 0, 7], [(3, true)])] []).ops
          = keys.map (fun k => Op.mergeValues k (i64le (-1)))
            ++ [Op.putLog (serialize_changelog_key 0 0 7)
                (sampleModel.serializeChangeLog
                  (applyLogAction ChangeLogWriter.new (LogAction.delete 3)))]) ∨
      (sampleModel.dbValuesGet (serialize_blob_key 0 0 3) = Option.none ∧
        (DocState.mk
            [Op.mergeValues ([0, 1] ++ List.replicate 32 5) (i64le (-1)),
              Op.putLog [0, 0, 0, 0, 0, 0, 0, 0, 0, 0, 0, 0, 7] [0, 0, 1]]
            [([0, 0, 7], [(3, true)])] []).ops
          = [Op.putLog (serialize_changelog_key 0 0 7)
              (sampleModel.serializeChangeLog
                (applyLogAction ChangeLogWriter.new (LogAction.delete 3)))])) :=
  c2_delete_frame sampleModel 0
    ⟨0, Language.english, WriteAction.delete 3, Option.some 7, LogAction.delete 3, []⟩
    3
    ⟨[Op.mergeValues ([0, 1] ++ List.replicate 32 5) (i64le (-1)),
        Op.putLog [0, 0, 0, 0, 0, 0, 0, 0, 0, 0, 0, 0, 7] [0, 0, 1]],
      [([0, 0, 7], [(3, true)])], []⟩
    rfl rfl

/-! ### Full-text term bits (claim C5) -/

theorem bmInsert_lookup_same_doc (bl : BitmapList) (k2 k : Bytes) (d : Nat)
    (pol : Bool) (h : bmLookup bl k d = some pol) :
    bmLookup (bmInsert bl k2 d pol) k d = some pol := by
  by_cases hk : k2 = k
  · subst hk
    exact bmInsert_lookup_self bl k2 d pol
  · rw [bmInsert_lookup_ne _ _ _ _ _ _ hk]
    exact h

theorem termBitsStep_keep (a c f d : Nat) (pol : Bool) (bm : BitmapList) (t : Term)
    (k : Bytes) (h : bmLookup bm k d = some pol) :
    bmLookup (termBitsStep a c f d pol bm t) k d = some pol := by
  rw [termBitsStep]
  split
  · exact bmInsert_lookup_same_doc _ _ _ _ _ (bmInsert_lookup_same_doc _ _ _ _ _ h)
  · exact bmInsert_lookup_same_doc _ _ _ _ _ h

theorem insertTermBits_keep (a c f d : Nat) (pol : Bool) (bm : BitmapList)
    (terms : List Term) (k : Bytes) (h : bmLookup bm k d = some pol) :
    bmLookup (insertTermBits a c f d pol bm terms) k d = some pol := by
  induction terms generalizing bm with
  | nil => exact h
  | cons t rest ih =>
    rw [insertTermBits, List.foldl_cons, ← insertTermBits]
    exact ih _ (termBitsStep_keep a c f d pol bm t k h)

theorem termBitsStep_exact (a c f d : Nat) (pol : Bool) (bm : BitmapList) (t : Term) :
    bmLookup (termBitsStep a c f d pol bm t)
      (serialize_bm_term_key a c f t.id true) d = some pol := by
  rw [termBitsStep]
  split
  · rw [bmInsert_lookup_ne]
    · exact bmInsert_lookup_self _ _ _ _
    · exact ne_of_getLast_ne (bm_term_key_getLast_stemmed a c f t.idStemmed)
        (bm_term_key_getLast_exact a c f t.id)
        (by simp [BM_TERM_STEMMED, BM_TERM_EXACT])
  · exact bmInsert_lookup_self _ _ _ _

theorem insertTermBits_exact_mem (a c f d : Nat) (pol : Bool) (bm : BitmapList)
    (terms : List Term) (t : Term) (ht : t ∈ terms) :
    bmLookup (insertTermBits a c f d pol bm terms)
      (serialize_bm_term_key a c f t.id true) d = some pol := by
  induction terms generalizing bm with
  | nil => cases ht
  | cons u rest ih =>
    rw [insertTermBits, List.foldl_cons, ← insertTermBits]
    rcases List.mem_cons.mp ht with h | h
    · subst h
      exact insertTermBits_keep a c f d pol _ rest _ (termBitsStep_exact a c f d pol bm t)
    · exact ih _ h

theorem insertTermBits_stemmed_mem (a c f d : Nat) (pol : Bool) (bm : BitmapList)
    (terms : List Term) (t : Term) (ht : t ∈ terms) (hne : t.idStemmed ≠ t.id) :
    bmLookup (insertTermBits a c f d pol bm terms)
      (serialize_bm_term_key a c f t.idStemmed false) d = some pol := by
  induction terms generalizing bm with
  | nil => cases ht
  | cons u rest ih =>
    rw [insertTermBits, List.foldl_cons, ← insertTermBits]
    rcases List.mem_cons.mp ht with h | h
    · subst h
      refine insertTermBits_keep a c f d pol _ rest _ ?_
      rw [termBitsStep]
      rw [if_pos hne]
      exact bmInsert_lookup_self _ _ _ _
    · exact ih _ h

theorem textOptions_isClear_false (o : FieldOptions) (h : o ≠ FieldOptions.clear) :
    (textOptions o).2.2.1 = false := by
  cases o <;> first | rfl | exact absurd rfl h

/-- The bitmap list committed by `update_document` is the one produced by
the field loop: neither the term-index write nor the blob section touches
the bitmap aggregation. -/
theorem updateDocument_bitmaps_eq (M : StoreModel) (a c d : Nat) (lang : Language)
    (fields : List UpdateField) (st s : DocState)
    (h : updateDocument M a c d lang fields st = Except.ok s) :
    s.bitmaps = (foldFields M a c d lang fields st).st.bitmaps := by
  rw [updateDocument] at h
  split at h
  · rw [processBlobsGo_bitmaps M a c d _ _ _ _ _ h, withTermIndexOp_bitmaps]
  · cases h
    rw [withTermIndexOp_bitmaps]

/-- `sampleModel` with a stemmer for which the stemmed term id coincides
with the exact term id. -/
def sampleModelSame : StoreModel :=
  { sampleModel with getTerms := fun _ _ => [⟨5, 5⟩] }

/-- Counterexample to C5 as stated: under `sampleModelSame` the single
produced term has `id_stemmed = id = 5`, the insert commits successfully,
yet no bit is written under the `BM_TERM_STEMMED` key of term 5 — the code
only writes the stemmed bit when `term.id_stemmed != term.id`. -/
theorem c5_stemmed_bit_not_written :
    updateDocument sampleModelSame 0 0 0 Language.english
        [UpdateField.text ⟨0, TextValue.full ⟨[], Language.unknown⟩, FieldOptions.none⟩]
        DocState.empty
      = Except.ok ⟨[Op.putValues [0, 0, 0] [9]], [([0, 5, 0, 0, 1], [(0, true)])], []⟩ ∧
    Term.mk 5 5 ∈ sampleModelSame.getTerms Language.english [] ∧
    bmLookup [([0, 5, 0, 0, 1], [(0, true)])] (serialize_bm_term_key 0 0 0 5 false) 0
      = Option.none :=
  ⟨rfl, List.mem_singleton_self _, rfl⟩

/-- Claim C5 (amended): for every committed full-text field operation,
terms are produced by the stemmer for the field's language (defaulting to
the batch's default language when the field's language is `Unknown`); every
produced term's exact id bit is written in `BM_TERM_EXACT` with the
operation's polarity (set, or cleared for a `Clear` operation), and the
stemmed term id's bit is written in `BM_TERM_STEMMED` the same way only
when the stemmed id differs from the exact id (when the two coincide no
stemmed bit is written). -/
theorem c5_fulltext_term_bits (M : StoreModel) (account collection documentId : Nat)
    (defaultLanguage : Language) (tf : Field TextValue) (ft : FullText)
    (st s : DocState) (hval : tf.value = TextValue.full ft)
    (hok : updateDocument M account collection documentId defaultLanguage
        [UpdateField.text tf] st = Except.ok s) :
    ∀ t ∈ M.getTerms
        (if ft.language = Language.unknown then defaultLanguage else ft.language)
        ft.text,
      bmLookup s.bitmaps
          (serialize_bm_term_key account collection tf.field t.id true) documentId
        = some (!(textOptions tf.options).2.2.1) ∧
      (t.idStemmed ≠ t.id →
        bmLookup s.bitmaps
            (serialize_bm_term_key account collection tf.field t.idStemmed false)
            documentId
          = some (!(textOptions tf.options).2.2.1)) := by
  intro t ht
  have hbm := updateDocument_bitmaps_eq M account collection documentId
    defaultLanguage [UpdateField.text tf] st s hok
  rw [hbm]
  have hterms : M.getTerms
      (if ft.language = Language.unknown then defaultLanguage else ft.language)
      ft.text ≠ [] := List.ne_nil_of_mem ht
  simp only [foldFields, List.foldl_cons, List.foldl_nil, fieldStep, hval]
  rw [if_pos hterms]
  constructor
  · exact insertTermBits_exact_mem account collection tf.field documentId
      (!(textOptions tf.options).2.2.1) st.bitmaps _ t ht
  · intro hne
    exact insertTermBits_stemmed_mem account collection tf.field documentId
      (!(textOptions tf.options).2.2.1) st.bitmaps _ t ht hne

/-- Witness for the amended C5 at a concrete input: under `sampleModel` the
produced term (3, stemmed 4) yields a `BM_TERM_EXACT` bit for 3 and a
`BM_TERM_STEMMED` bit for 4. -/
theorem c5_fulltext_term_bits_witness :
    bmLookup [([0, 3, 0, 2, 1], [(1, true)]), ([0, 4, 0, 2, 2], [(1, true)])]
      (serialize_bm_term_key 0 0 2 3 true) 1 = some true ∧
    bmLookup [([0, 3, 0, 2, 1], [(1, true)]), ([0, 4, 0, 2, 2], [(1, true)])]
      (serialize_bm_term_key 0 0 2 4 false) 1 = some true := by
  have h := c5_fulltext_term_bits sampleModel 0 0 1 Language.english
    ⟨2, TextValue.full ⟨[8], Language.unknown⟩, FieldOptions.none⟩
    ⟨[8], Language.unknown⟩ DocState.empty
    ⟨[Op.putValues [0, 0, 1] [9]],
      [([0, 3, 0, 2, 1], [(1, true)]), ([0, 4, 0, 2, 2], [(1, true)])], []⟩
    rfl rfl (Term.mk 3 4) (List.mem_singleton_self _)
  exact ⟨h.1, h.2 (by decide)⟩

/-! ### Default-language noninterference (claim C10) -/

/-- Whether a queued field operation is a `Text::Full` (full-text)
operation — the only kind whose processing consults the batch's default
language. -/
def isFullTextOp : UpdateField → Bool
  | .text t =>
    match t.value with
    | .full _ => true
    | _ => false
  | _ => false

theorem fieldStep_default_language (M : StoreModel) (a c d : Nat)
    (l1 l2 : Language) (acc : FieldLoopState) (f : UpdateField)
    (hf : isFullTextOp f = false) :
    fieldStep M a c d l1 acc f = fieldStep M a c d l2 acc f := by
  cases f with
  | text t =>
    cases hv : t.value with
    | default txt => simp only [fieldStep, hv]
    | keyword txt => simp only [fieldStep, hv]
    | tokenized txt => simp only [fieldStep, hv]
    | full ft =>
      simp only [isFullTextOp, hv] at hf
      exact Bool.noConfusion hf
  | tag t => rfl
  | binary b => rfl
  | integer i => rfl
  | longInteger i => rfl
  | float g => rfl

theorem foldFields_default_language (M : StoreModel) (a c d : Nat)
    (l1 l2 : Language) (fields : List UpdateField) (st : DocState)
    (hf : ∀ f ∈ fields, isFullTextOp f = false) :
    foldFields M a c d l1 fields st = foldFields M a c d l2 fields st := by
  suffices h : ∀ acc : FieldLoopState,
      fields.foldl (fieldStep M a c d l1) acc = fields.foldl (fieldStep M a c d l2) acc by
    exact h ⟨st, [], []⟩
  induction fields with
  | nil => intro acc; rfl
  | cons f rest ih =>
    intro acc
    simp only [List.foldl_cons]
    rw [fieldStep_default_language M a c d l1 l2 acc f
      (hf f (List.mem_cons_self f rest))]
    exact ih (fun g hg => hf g (List.mem_cons_of_mem f hg)) _

theorem updateDocument_default_language (M : StoreModel) (a c d : Nat)
    (l1 l2 : Language) (fields : List UpdateField) (st : DocState)
    (hf : ∀ f ∈ fields, isFullTextOp f = false) :
    updateDocument M a c d l1 fields st = updateDocument M a c d l2 fields st := by
  rw [updateDocument, updateDocument,
    foldFields_default_language M a c d l1 l2 fields st hf]

/-- Claim C10: tokenized (non-full-text) text fields are tokenized with the
English tokenizer regardless of the batch's default language; two write
batches that are identical except for `default_language` and contain no
full-text field commit identical KV mutations, bitmap mutations included. -/
theorem c10_default_language_noninterference (M : StoreModel) (account : Nat)
    (collection : Nat) (action : WriteAction) (logId : Option Nat)
    (logAction : LogAction) (fields : List UpdateField) (l1 l2 : Language)
    (hf : ∀ f ∈ fields, isFullTextOp f = false) :
    updateDocuments M account [⟨collection, l1, action, logId, logAction, fields⟩]
      = updateDocuments M account [⟨collection, l2, action, logId, logAction, fields⟩] := by
  rw [updateDocuments, updateDocuments, batchLoop, batchLoop, batchStep, batchStep]
  cases action with
  | insert assigned =>
    cases assigned with
    | freed id =>
      dsimp only
      rw [updateDocument_default_language M account collection id l1 l2 fields _ hf]
    | new id =>
      dsimp only
      rw [updateDocument_default_language M account collection id l1 l2 fields _ hf]
  | update id =>
    dsimp only
    rw [updateDocument_default_language M account collection id l1 l2 fields _ hf]
  | delete id => rfl

/-- Witness for C10 at a concrete input: a batch with one tokenized text
field commits the same mutations under default language English as under
another default language. -/
theorem c10_default_language_noninterference_witness :
    updateDocuments sampleModel 0
        [⟨0, Language.english, WriteAction.update 2, Option.some 4, LogAction.update 2,
          [UpdateField.text ⟨1, TextValue.tokenized [66], FieldOptions.none⟩]⟩]
      = updateDocuments sampleModel 0
        [⟨0, Language.other 7, WriteAction.update 2, Option.some 4, LogAction.update 2,
          [UpdateField.text ⟨1, TextValue.tokenized [66], FieldOptions.none⟩]⟩] :=
  c10_default_language_noninterference sampleModel 0 0 (WriteAction.update 2)
    (Option.some 4) (LogAction.update 2)
    [UpdateField.text ⟨1, TextValue.tokenized [66], FieldOptions.none⟩]
    Language.english (Language.other 7) (by decide)

/-! ### Dense blob indices (claim C6) -/

/-- The arithmetic sequence `s, s+1, ..., s+n-1`. -/
def rangeFrom : Nat → Nat → List Nat
  | _, 0 => []
  | s, n + 1 => s :: rangeFrom (s + 1) n

theorem rangeFrom_eq_map (s n : Nat) :
    rangeFrom s n = (List.range n).map (fun j => s + j) := by
  induction n generalizing s with
  | zero => rfl
  | succ n ih =>
    rw [rangeFrom, ih, List.range_succ_eq_map, List.map_cons, List.map_map]
    have h2 : (List.range n).map (fun j => s + 1 + j)
        = (List.range n).map ((fun j => s + j) ∘ Nat.succ) :=
      List.map_congr_left fun a _ => by simp only [Function.comp_apply]; omega
    rw [← h2]
    simp

theorem rangeFrom_zero (n : Nat) : rangeFrom 0 n = List.range n := by
  rw [rangeFrom_eq_map]
  simp

theorem denseCheck_some_iff (l : List Nat) (k : Nat) :
    denseCheck (Option.some k) l = true ↔ l = rangeFrom (k + 1) l.length := by
  induction l generalizing k with
  | nil => simp [denseCheck, rangeFrom]
  | cons i rest ih =>
    simp only [denseCheck, List.length_cons, rangeFrom]
    by_cases hik : k + 1 = i
    · rw [if_pos hik, ih i]
      subst hik
      simp
    · rw [if_neg hik]
      simp only [Bool.false_eq_true, false_iff, List.cons.injEq, not_and]
      intro h
      exact absurd h.symm hik

theorem denseCheck_none_iff (l : List Nat) :
    denseCheck Option.none l = true ↔ l = rangeFrom 0 l.length := by
  cases l with
  | nil => simp [denseCheck, rangeFrom]
  | cons i rest =>
    simp only [denseCheck, rangeFrom, List.length_cons]
    by_cases h0 : i = 0
    · rw [if_pos h0, denseCheck_some_iff rest i]
      subst h0
      simp
    · rw [if_neg h0]
      simp only [Bool.false_eq_true, false_iff, List.cons.injEq, not_and]
      intro h
      exact absurd h h0

theorem processBlobsGo_ok (M : StoreModel) (a c d : Nat) (bf : List (Nat × Bytes)) :
    ∀ (last : Option Nat) (entries : Bytes) (st : DocState),
    denseCheck last (bf.map Prod.fst) = true →
    processBlobsGo M a c d last entries bf st = Except.ok
      ⟨st.ops
          ++ bf.map (fun p => Op.mergeValues (blobKeyPfx ++ M.hashBlob p.2) (i64le 1))
          ++ [Op.putValues (serialize_blob_key a c d)
              (entries ++ (bf.map (fun p => M.hashBlob p.2)).flatten)],
        st.bitmaps,
        st.storedBlobs ++ bf.map (fun p => (blobKeyPfx ++ M.hashBlob p.2, p.2))⟩ := by
  induction bf with
  | nil =>
    intro last entries st _
    simp [processBlobsGo]
  | cons p rest ih =>
    obtain ⟨idx, blob⟩ := p
    intro last entries st hd
    cases last with
    | none =>
      simp only [List.map_cons, denseCheck] at hd
      by_cases h0 : idx = 0
      · rw [if_pos h0] at hd
        simp only [processBlobsGo]
        rw [if_neg (by simp [h0])]
        rw [ih (Option.some idx) _ _ hd]
        simp [List.drop_left, List.append_assoc, blobKeyPfx]
      · rw [if_neg h0] at hd
        exact absurd hd (by simp)
    | some l =>
      simp only [List.map_cons, denseCheck] at hd
      by_cases h0 : l + 1 = idx
      · rw [if_pos h0] at hd
        simp only [processBlobsGo]
        rw [if_neg (by simp [h0])]
        rw [ih (Option.some idx) _ _ hd]
        simp [List.drop_left, List.append_assoc, blobKeyPfx]
      · rw [if_neg h0] at hd
        exact absurd hd (by simp)

theorem processBlobsGo_err (M : StoreModel) (a c d : Nat) (bf : List (Nat × Bytes)) :
    ∀ (last : Option Nat) (entries : Bytes) (st : DocState),
    denseCheck last (bf.map Prod.fst) = false →
    ∃ e, processBlobsGo M a c d last entries bf st = Except.error e := by
  induction bf with
  | nil =>
    intro last entries st hd
    simp [denseCheck] at hd
  | cons p rest ih =>
    obtain ⟨idx, blob⟩ := p
    intro last entries st hd
    cases last with
    | none =>
      simp only [List.map_cons, denseCheck] at hd
      by_cases h0 : idx = 0
      · rw [if_pos h0] at hd
        simp only [processBlobsGo]
        rw [if_neg (by simp [h0])]
        exact ih _ _ _ hd
      · simp only [processBlobsGo]
        rw [if_pos (by simp [h0])]
        exact ⟨_, rfl⟩
    | some l =>
      simp only [List.map_cons, denseCheck] at hd
      by_cases h0 : l + 1 = idx
      · rw [if_pos h0] at hd
        simp only [processBlobsGo]
        rw [if_neg (by simp [h0])]
        exact ih _ _ _ hd
      · simp only [processBlobsGo]
        rw [if_pos (by simp [h0])]
        exact ⟨_, rfl⟩

theorem withTermIndexOp_storedBlobs (M : StoreModel) (a c d : Nat)
    (acc : FieldLoopState) :
    (withTermIndexOp M a c d acc).storedBlobs = acc.st.storedBlobs := by
  rw [withTermIndexOp]
  split <;> rfl
/-- Claim C6: when a document carries blob-stored fields, the pipeline
errors (and, since the error propagates out of `update_documents` before
the atomic write, commits nothing) exactly when the sorted blob indices are
not the dense sequence `0, 1, ..., n-1`; when they are dense it hashes
each blob to its content-addressed key, stores the payload, merges +1 into
each blob's reference counter and writes the document's blob-list row. -/
theorem c6_blob_dense_validation (M : StoreModel) (account collection documentId : Nat)
    (lang : Language) (logId : Option Nat) (logAction : LogAction)
    (fields : List UpdateField) (st : DocState) (acc : FieldLoopState)
    (hacc : foldFields M account collection documentId lang fields st = acc)
    (hbf : acc.blobFields ≠ []) :
    ((∃ e, updateDocument M account collection documentId lang fields st
        = Except.error e)
      ↔ (sortBlobFields acc.blobFields).map Prod.fst
          ≠ List.range ((sortBlobFields acc.blobFields).map Prod.fst).length) ∧
    (∀ s, updateDocument M account collection documentId lang fields st = Except.ok s →
      s.ops = (withTermIndexOp M account collection documentId acc).ops
          ++ (sortBlobFields acc.blobFields).map
            (fun p => Op.mergeValues (blobKeyPfx ++ M.hashBlob p.2) (i64le 1))
          ++ [Op.putValues (serialize_blob_key account collection documentId)
              ((sortBlobFields acc.blobFields).map (fun p => M.hashBlob p.2)).flatten] ∧
      s.storedBlobs = acc.st.storedBlobs
          ++ (sortBlobFields acc.blobFields).map
            (fun p => (blobKeyPfx ++ M.hashBlob p.2, p.2))) ∧
    (∀ e, updateDocument M account collection documentId lang fields DocState.empty
        = Except.error e →
      updateDocuments M account
          [⟨collection, lang, WriteAction.update documentId, logId, logAction, fields⟩]
        = Except.error e) := by
  have hud : updateDocument M account collection documentId lang fields st
      = processBlobsGo M account collection documentId Option.none []
          (sortBlobFields acc.blobFields)
          (withTermIndexOp M account collection documentId acc) := by
    rw [updateDocument, hacc, if_pos hbf]
  refine ⟨⟨?_, ?_⟩, ?_, ?_⟩
  · rintro ⟨e, he⟩ hdense
    have hdc : denseCheck Option.none ((sortBlobFields acc.blobFields).map Prod.fst)
        = true := by
      rw [denseCheck_none_iff, rangeFrom_zero]
      exact hdense
    rw [hud, processBlobsGo_ok M account collection documentId _ _ _ _ hdc] at he
    exact Except.noConfusion he
  · intro hne
    cases hdc : denseCheck Option.none ((sortBlobFields acc.blobFields).map Prod.fst) with
    | true =>
      exfalso
      apply hne
      rw [denseCheck_none_iff, rangeFrom_zero] at hdc
      exact hdc
    | false =>
      obtain ⟨e, he⟩ := processBlobsGo_err M account collection documentId
        (sortBlobFields acc.blobFields) Option.none []
        (withTermIndexOp M account collection documentId acc) hdc
      exact ⟨e, hud.trans he⟩
  · intro s hs
    rw [hud] at hs
    cases hdc : denseCheck Option.none ((sortBlobFields acc.blobFields).map Prod.fst) with
    | false =>
      obtain ⟨e, he⟩ := processBlobsGo_err M account collection documentId
        (sortBlobFields acc.blobFields) Option.none []
        (withTermIndexOp M account collection documentId acc) hdc
      rw [he] at hs
      exact Except.noConfusion hs
    | true =>
      rw [processBlobsGo_ok M account collection documentId _ _ _ _ hdc] at hs
      cases hs
      refine ⟨by simp, ?_⟩
      rw [withTermIndexOp_storedBlobs]
  · intro e he
    rw [updateDocuments, batchLoop, batchStep]
    dsimp only
    rw [he]

/-- Witness for C6 at a concrete input: one blob field with index 0 is
dense, so the commit stores the blob, merges +1 into its reference counter
and writes the blob-list row. -/
theorem c6_blob_dense_validation_witness :
    (DocState.mk
        [Op.mergeValues ([0, 1] ++ List.replicate 32 55) (i64le 1),
          Op.putValues [0, 0, 1, 0, 1] (List.replicate 32 55)]
        [] [([0, 1] ++ List.replicate 32 55, [55])]).ops
      = (withTermIndexOp sampleModel 0 0 1 ⟨⟨[], [], []⟩, [], [(0, [55])]⟩).ops
          ++ (sortBlobFields [(0, [55])]).map
            (fun p => Op.mergeValues (blobKeyPfx ++ sampleModel.hashBlob p.2) (i64le 1))
          ++ [Op.putValues (serialize_blob_key 0 0 1)
              ((sortBlobFields [(0, [55])]).map
                (fun p => sampleModel.hashBlob p.2)).flatten] ∧
    (DocState.mk
        [Op.mergeValues ([0, 1] ++ List.replicate 32 55) (i64le 1),
          Op.putValues [0, 0, 1, 0, 1] (List.replicate 32 55)]
        [] [([0, 1] ++ List.replicate 32 55, [55])]).storedBlobs
      = (FieldLoopState.mk ⟨[], [], []⟩ [] [(0, [55])]).st.storedBlobs
          ++ (sortBlobFields [(0, [55])]).map
            (fun p => (blobKeyPfx ++ sampleModel.hashBlob p.2, p.2)) :=
  (c6_blob_dense_validation sampleModel 0 0 1 Language.english (Option.some 2)
      (LogAction.insert 1) [UpdateField.binary ⟨0, [55], FieldOptions.storeAsBlob 0⟩]
      DocState.empty ⟨⟨[], [], []⟩, [], [(0, [55])]⟩ rfl (by decide)).2.1
    (DocState.mk
      [Op.mergeValues ([0, 1] ++ List.replicate 32 55) (i64le 1),
        Op.putValues [0, 0, 1, 0, 1] (List.replicate 32 55)]
      [] [([0, 1] ++ List.replicate 32 55, [55])])
    (by rfl)

end JmapStore

/-! ## ORM layer (`components/jmap/src/jmap_store/orm.rs`) -/

namespace JmapOrm

open JmapStore (Tag Language Bytes)

/-- `JSONValue` as discriminated by `TinyORM::merge`: strings, numbers and
null get special handling; every other JSON shape falls into the default
arm, carried here with an opaque payload. -/
inductive JSONValue where
  | null
  | boolean (b : Bool)
  | number (n : Int)
  | string (s : String)
  | otherValue (code : Nat)
deriving DecidableEq, Repr

/-- Index options as consumed by the document builder: the schema's option
word plus the `Clear` flag (`store::write::options` is not part of this
snapshot; the spec fixes options as a bitfield over Store/Sort/Clear). -/
structure IndexOpts where
  value : Nat
  isClear : Bool
deriving DecidableEq, Repr

/-- `IndexOptions::new()`. -/
def IndexOpts.new : IndexOpts := ⟨0, false⟩

/-- `IndexOptions::new().store()` as used by `insert_orm`; modelled from
the spec as the Store bit. -/
def IndexOpts.storeOnly : IndexOpts := ⟨1, false⟩

/-- One queued document operation (`Document::text/number/tag/binary`);
`Document` itself lives in `store::core::document`, which is not part of
this snapshot — modelled from the spec (§4.2): the builder accumulates
operations without I/O and `is_empty` reflects whether any operation has
been queued. -/
inductive DocOp where
  | text (prop : Nat) (s : String) (lang : Language) (opts : IndexOpts)
  | number (prop : Nat) (n : Int) (opts : IndexOpts)
  | tag (prop : Nat) (t : Tag) (opts : IndexOpts)
  | binary (prop : Nat) (v : Bytes) (opts : IndexOpts)
deriving DecidableEq, Repr

/-- `TinyORM`: typed property map plus per-property tag sets, with the
property type `T` (a `u8`-valued schema enum) carried as `Nat`. The two
`HashMap`s are modelled as association lists in iteration order, with
distinct keys. -/
structure TinyORM where
  properties : List (Nat × JSONValue)
  tags : List (Nat × List Tag)
deriving DecidableEq, Repr

/-- `HashMap::get`. -/
def propLookup (m : List (Nat × JSONValue)) (p : Nat) : Option JSONValue :=
  match m with
  | [] => Option.none
  | (q, v) :: rest => if q = p then Option.some v else propLookup rest p

/-- `HashMap::insert` (replace in place or append). -/
def propInsert (m : List (Nat × JSONValue)) (p : Nat) (v : JSONValue) :
    List (Nat × JSONValue) :=
  match m with
  | [] => [(p, v)]
  | (q, w) :: rest => if q = p then (p, v) :: rest else (q, w) :: propInsert rest p v

/-- `HashMap::remove`. -/
def propRemove (m : List (Nat × JSONValue)) (p : Nat) : List (Nat × JSONValue) :=
  match m with
  | [] => []
  | (q, w) :: rest => if q = p then rest else (q, w) :: propRemove rest p

/-- `HashMap::get` on the tag map. -/
def lookupTags (m : List (Nat × List Tag)) (p : Nat) : Option (List Tag) :=
  match m with
  | [] => Option.none
  | (q, ts) :: rest => if q = p then Option.some ts else lookupTags rest p

/-- `HashSet` equality: mutual containment. -/
def tagSetEq (a b : List Tag) : Bool :=
  a.all (fun t => b.contains t) && b.all (fun t => a.contains t)

/-- `HashMap<T, HashSet<Tag>>` equality: same keys, extensionally equal
sets. -/
def tagsMapEq (m1 m2 : List (Nat × List Tag)) : Bool :=
  m1.all (fun e =>
    match lookupTags m2 e.1 with
    | Option.some ts => tagSetEq e.2 ts
    | Option.none => false)
  && m2.all (fun e =>
    match lookupTags m1 e.1 with
    | Option.some ts => tagSetEq e.2 ts
    | Option.none => false)

/-- The `(is_indexed, index_options)` pair: the first schema entry for the
property, else `(false, 0)`. -/
def indexedOpts (indexed : List (Nat × Nat)) (property : Nat) : Bool × Nat :=
  match indexed.find? (fun q => q.1 = property) with
  | Option.some q => (true, q.2)
  | Option.none => (false, 0)

/-- State threaded through the `for (property, value) in changes.properties`
loop of `TinyORM::merge`: the (mutated) property map and the document
builder. -/
structure MergeState where
  props : List (Nat × JSONValue)
  doc : List DocOp
deriving DecidableEq, Repr

/-- One iteration of the property loop of `TinyORM::merge`. -/
def mergeStep (indexed : List (Nat × Nat)) (st : MergeState)
    (pv : Nat × JSONValue) : MergeState :=
  let (property, value) := pv
  let (isIndexed, indexOptions) := indexedOpts indexed property
  match propLookup st.props property with
  | Option.some currentValue =>
    if currentValue = value then st
    else
      let doc1 :=
        if isIndexed then
          match currentValue with
          | .string text => st.doc ++ [DocOp.text property text Language.unknown
              ⟨indexOptions, true⟩]
          | .number n => st.doc ++ [DocOp.number property n ⟨indexOptions, true⟩]
          | _ => st.doc
        else st.doc
      match value with
      | .string s =>
        ⟨propInsert st.props property (JSONValue.string s),
          if isIndexed then
            doc1 ++ [DocOp.text property s Language.unknown ⟨indexOptions, false⟩]
          else doc1⟩
      | .number n =>
        ⟨propInsert st.props property (JSONValue.number n),
          if isIndexed then doc1 ++ [DocOp.number property n ⟨indexOptions, false⟩]
          else doc1⟩
      | .null => ⟨propRemove st.props property, doc1⟩
      | v => ⟨propInsert st.props property v, doc1⟩
  | Option.none =>
    match value with
    | .string s =>
      ⟨propInsert st.props property (JSONValue.string s),
        if (indexedOpts indexed property).1 then
          st.doc ++ [DocOp.text property s Language.unknown
            ⟨(indexedOpts indexed property).2, false⟩]
        else st.doc⟩
    | .number n =>
      ⟨propInsert st.props property (JSONValue.number n),
        if (indexedOpts indexed property).1 then
          st.doc ++ [DocOp.number property n ⟨(indexedOpts indexed property).2, false⟩]
        else st.doc⟩
    | .null => ⟨propRemove st.props property, st.doc⟩
    | v => ⟨propInsert st.props property v, st.doc⟩

/-- The two tag-diff loops of `TinyORM::merge`: clear tags that disappear,
set tags that appear. -/
def tagDiffOps (selfTags changesTags : List (Nat × List Tag)) : List DocOp :=
  (selfTags.foldl
    (fun acc e =>
      match lookupTags changesTags e.1 with
      | Option.some changedTags =>
        if tagSetEq e.2 changedTags then acc
        else acc ++ (e.2.filter (fun t => !(changedTags.contains t))).map
          (fun t => DocOp.tag e.1 t ⟨0, true⟩)
      | Option.none => acc)
    [])
  ++ (changesTags.foldl
    (fun acc e =>
      match lookupTags selfTags e.1 with
      | Option.some tags =>
        if tagSetEq e.2 tags then acc
        else acc ++ (e.2.filter (fun t => !(tags.contains t))).map
          (fun t => DocOp.tag e.1 t ⟨0, false⟩)
      | Option.none => acc ++ e.2.map (fun t => DocOp.tag e.1 t ⟨0, false⟩))
    [])

/-- `TinyORM::merge`: apply property diffs and tag diffs to the document
builder; when anything was emitted, also queue the updated ORM snapshot
(field `0xFF`) and return `true`, else return `false`. The msgpack
serializer lives outside this snapshot and is passed as `ser`. -/
def TinyORM.merge (ser : TinyORM → Bytes) (indexed : List (Nat × Nat))
    (self changes : TinyORM) (doc : List DocOp) : List DocOp × Bool :=
  let st := changes.properties.foldl (mergeStep indexed) ⟨self.properties, doc⟩
  let tagsEqual := tagsMapEq self.tags changes.tags
  let doc2 := if tagsEqual then st.doc else st.doc ++ tagDiffOps self.tags changes.tags
  let newTags := if tagsEqual then self.tags else changes.tags
  if doc2 ≠ [] then
    (doc2 ++ [DocOp.binary 255 (ser ⟨st.props, newTags⟩) IndexOpts.storeOnly], true)
  else (doc2, false)

theorem propLookup_mem_nodup (l : List (Nat × JSONValue)) (p : Nat) (v : JSONValue)
    (hnd : (l.map Prod.fst).Nodup) (hmem : (p, v) ∈ l) :
    propLookup l p = Option.some v := by
  induction l with
  | nil => cases hmem
  | cons e rest ih =>
    obtain ⟨q, w⟩ := e
    simp only [List.map_cons, List.nodup_cons] at hnd
    rcases List.mem_cons.mp hmem with h | h
    · cases h
      simp [propLookup]
    · have hq : q ≠ p := by
        intro hqp
        subst hqp
        exact hnd.1 (List.mem_map.mpr ⟨(q, v), h, rfl⟩)
      simp only [propLookup, if_neg hq]
      exact ih hnd.2 h

theorem lookupTags_mem_nodup (l : List (Nat × List Tag)) (p : Nat) (ts : List Tag)
    (hnd : (l.map Prod.fst).Nodup) (hmem : (p, ts) ∈ l) :
    lookupTags l p = Option.some ts := by
  induction l with
  | nil => cases hmem
  | cons e rest ih =>
    obtain ⟨q, w⟩ := e
    simp only [List.map_cons, List.nodup_cons] at hnd
    rcases List.mem_cons.mp hmem with h | h
    · cases h
      simp [lookupTags]
    · have hq : q ≠ p := by
        intro hqp
        subst hqp
        exact hnd.1 (List.mem_map.mpr ⟨(q, ts), h, rfl⟩)
      simp only [lookupTags, if_neg hq]
      exact ih hnd.2 h

theorem mergeStep_skip (indexed : List (Nat × Nat)) (props : List (Nat × JSONValue))
    (d : List DocOp) (pv : Nat × JSONValue)
    (hl : propLookup props pv.1 = Option.some pv.2) :
    mergeStep indexed ⟨props, d⟩ pv = ⟨props, d⟩ := by
  obtain ⟨p, v⟩ := pv
  simp [mergeStep, hl]

theorem fold_mergeStep_skip (indexed : List (Nat × Nat))
    (changes : List (Nat × JSONValue)) (props : List (Nat × JSONValue))
    (d : List DocOp)
    (hall : ∀ pv ∈ changes, propLookup props pv.1 = Option.some pv.2) :
    changes.foldl (mergeStep indexed) ⟨props, d⟩ = ⟨props, d⟩ := by
  induction changes with
  | nil => rfl
  | cons pv rest ih =>
    rw [List.foldl_cons, mergeStep_skip indexed props d pv
      (hall pv (List.mem_cons_self pv rest))]
    exact ih fun q hq => hall q (List.mem_cons_of_mem pv hq)

theorem tagSetEq_refl (a : List Tag) : tagSetEq a a = true := by
  simp only [tagSetEq, Bool.and_self, List.all_eq_true]
  intro t ht
  exact List.elem_eq_true_of_mem ht

theorem tagsMapEq_refl (m : List (Nat × List Tag))
    (hnd : (m.map Prod.fst).Nodup) : tagsMapEq m m = true := by
  simp only [tagsMapEq, Bool.and_self, List.all_eq_true]
  intro e he
  rw [lookupTags_mem_nodup m e.1 e.2 hnd he]
  exact tagSetEq_refl e.2

/-- Claim C7: merging an ORM snapshot with an identical copy of itself into
a fresh document builder queues no operation and returns `false`; and in
general `merge` returns `true` exactly when at least one document operation
was emitted. -/
theorem c7_merge_identity_and_result (ser : TinyORM → Bytes)
    (indexed : List (Nat × Nat)) (prev next : TinyORM)
    (hnd1 : (prev.properties.map Prod.fst).Nodup)
    (hnd2 : (prev.tags.map Prod.fst).Nodup) :
    TinyORM.merge ser indexed prev prev [] = ([], false) ∧
    ((TinyORM.merge ser indexed prev next []).2 = true
      ↔ (TinyORM.merge ser indexed prev next []).1 ≠ []) := by
  constructor
  · rw [TinyORM.merge]
    have hfold : prev.properties.foldl (mergeStep indexed) ⟨prev.properties, []⟩
        = ⟨prev.properties, []⟩ :=
      fold_mergeStep_skip indexed prev.properties prev.properties []
        fun pv hpv => propLookup_mem_nodup prev.properties pv.1 pv.2 hnd1 hpv
    rw [hfold, tagsMapEq_refl prev.tags hnd2]
    simp
  · rw [TinyORM.merge]
    set st := next.properties.foldl (mergeStep indexed) ⟨prev.properties, []⟩ with hst
    set tagsEqual := tagsMapEq prev.tags next.tags with hte
    set doc2 := if tagsEqual = true then st.doc
      else st.doc ++ tagDiffOps prev.tags next.tags with hdoc2
    by_cases hc : doc2 ≠ []
    · rw [if_pos hc]
      simp only [true_iff]
      intro hcontra
      exact List.noConfusion (List.append_eq_nil.mp hcontra).2
    · rw [if_neg hc]
      push_neg at hc
      simp [hc]

/-- A concrete msgpack stand-in for the C7 witness. -/
def sampleOrmSerialize : TinyORM → Bytes := fun _ => [7]

/-- Witness for C7 at a concrete input: a snapshot with one string property
and one tag merged with itself emits nothing and returns `false`, and the
returned flag equals the emptiness test of the builder. -/
theorem c7_merge_identity_and_result_witness :
    TinyORM.merge sampleOrmSerialize [(1, 5)]
        ⟨[(1, JSONValue.string "a")], [(2, [Tag.id 3])]⟩
        ⟨[(1, JSONValue.string "a")], [(2, [Tag.id 3])]⟩ [] = ([], false) ∧
    ((TinyORM.merge sampleOrmSerialize [(1, 5)]
        ⟨[(1, JSONValue.string "a")], [(2, [Tag.id 3])]⟩
        ⟨[(1, JSONValue.string "b")], [(2, [Tag.id 3])]⟩ []).2 = true
      ↔ (TinyORM.merge sampleOrmSerialize [(1, 5)]
        ⟨[(1, JSONValue.string "a")], [(2, [Tag.id 3])]⟩
        ⟨[(1, JSONValue.string "b")], [(2, [Tag.id 3])]⟩ []).1 ≠ []) :=
  c7_merge_identity_and_result sampleOrmSerialize [(1, 5)]
    ⟨[(1, JSONValue.string "a")], [(2, [Tag.id 3])]⟩
    ⟨[(1, JSONValue.string "b")], [(2, [Tag.id 3])]⟩
    (by decide) (by decide)

end JmapOrm

/-! ## Raft replication (`src/cluster/log.rs`) -/

namespace JmapCluster

/-- `RaftId`: (term, index). -/
structure RaftId where
  term : Nat
  index : Nat
deriving DecidableEq, Repr

/-- A Raft log entry payload (`store::raft::Entry`): either one account
with its changed-collections bitmap, or a snapshot of
(collections-bitmap, account list) groups. Collections are carried as the
list of set bit positions of the `Bitmap<Collection>`. -/
inductive Entry where
  | item (accountId : Nat) (changedCollections : List Nat)
  | snapshot (changedAccounts : List (List Nat × List Nat))
deriving DecidableEq, Repr

/-- The sequence of (account, collections) pairs yielded by repeated
`Entry::next_account` calls: an `Item` yields its account once when the
bitmap is non-empty; a `Snapshot` pops groups from the back and account ids
from the back of each group. -/
def entryAccounts : Entry → List (Nat × List Nat)
  | .item a cols => if cols = [] then [] else [(a, cols)]
  | .snapshot xs => xs.reverse.flatMap (fun p => p.2.reverse.map (fun a => (a, p.1)))

/-- A raw log entry as shipped in `UpdateLog`: its Raft id and its payload.
The payload is carried already parsed; `Entry::deserialize` failure makes
the follower answer `Response::None` and is outside this claim. -/
structure RawEntry where
  id : RaftId
  entry : Entry
deriving DecidableEq, Repr

/-- `UpdateCollection` from the RPC module. -/
structure UpdateCollection where
  accountId : Nat
  collection : Nat
  fromChangeId : Option Nat
deriving DecidableEq, Repr

/-- The `update_collections` map, keyed by (account, collection), in
insertion order. -/
abbrev UpdateMap := List ((Nat × Nat) × UpdateCollection)

/-- `HashMap::get` on the update map. -/
def ucLookup (m : UpdateMap) (k : Nat × Nat) : Option UpdateCollection :=
  match m with
  | [] => Option.none
  | (k2, v) :: rest => if k2 = k then Option.some v else ucLookup rest k

/-- Whether the follower's last known change id for (account, collection)
is strictly behind the entry's index (or absent): the condition under which
`handle_update_log` records the pair. -/
def qualifiesB (getLast : Nat → Nat → Option Nat) (idx a c : Nat) : Bool :=
  match getLast a c with
  | Option.some last => last < idx
  | Option.none => true

/-- One `for collection in collections` iteration of `handle_update_log`:
on a vacant key, insert `UpdateCollection{from_change_id}` unless the
follower already has the entry's index (the `continue` in the source skips
the vacant insert in that case). -/
def collectStep (getLast : Nat → Nat → Option Nat) (idx : Nat) (m : UpdateMap)
    (a c : Nat) : UpdateMap :=
  match ucLookup m (a, c) with
  | Option.some _ => m
  | Option.none =>
    match getLast a c with
    | Option.some last =>
      if idx ≤ last then m
      else m ++ [((a, c), ⟨a, c, Option.some last⟩)]
    | Option.none => m ++ [((a, c), ⟨a, c, Option.none⟩)]

/-- The flattened iteration of `handle_update_log` over all entries: one
(entry index, account, collection) triple per visited collection. -/
def occurrences (entries : List RawEntry) : List (Nat × Nat × Nat) :=
  entries.flatMap (fun re =>
    (entryAccounts re.entry).flatMap (fun p =>
      p.2.map (fun c => (re.id.index, p.1, c))))

/-- Fold `collectStep` over an occurrence list. -/
def occFold (getLast : Nat → Nat → Option Nat) (occs : List (Nat × Nat × Nat))
    (m : UpdateMap) : UpdateMap :=
  occs.foldl (fun m t => collectStep getLast t.1 m t.2.1 t.2.2) m

/-- The `update_collections` map built by the worker closure of
`handle_update_log`. -/
def updateCollections (getLast : Nat → Nat → Option Nat)
    (entries : List RawEntry) : UpdateMap :=
  occFold getLast (occurrences entries) []

/-- The responses `handle_update_log` can produce. -/
inductive Response where
  | needUpdates (collections : List UpdateCollection)
  | continueR
  | noneR
deriving DecidableEq, Repr

/-- The follower-visible state touched by `handle_update_log` and
`commit_log`: buffered raw entries, the up-to-date flag, and the persisted
raft log (`insert_raft_entries`). -/
structure FollowerState where
  pendingEntries : List RawEntry
  upToDate : Bool
  committed : List RawEntry
deriving DecidableEq, Repr

/-- `commit_log` (success path): persist the entries; when the last
committed id equals the leader's commit id, mark the follower up to date. -/
def commitLog (st : FollowerState) (entries : List RawEntry) (commitId : RaftId) :
    FollowerState :=
  match entries.getLast? with
  | Option.none => st
  | Option.some last =>
    { st with
      committed := st.committed ++ entries,
      upToDate := if commitId = last.id then true else st.upToDate }

/-- `handle_update_log` (worker success path): build `update_collections`;
when non-empty, buffer the raw entries, drop the up-to-date flag and reply
`NeedUpdates`; otherwise commit the entries and reply `Continue`. -/
def handle_update_log (getLast : Nat → Nat → Option Nat) (st : FollowerState)
    (commitId : RaftId) (entries : List RawEntry) : FollowerState × Response :=
  let cols := updateCollections getLast entries
  if cols ≠ [] then
    ({ st with pendingEntries := entries, upToDate := false },
      Response.needUpdates (cols.map Prod.snd))
  else
    (commitLog st entries commitId, Response.continueR)

theorem ucLookup_append_one_self (m : UpdateMap) (k : Nat × Nat)
    (v : UpdateCollection) (h : ucLookup m k = Option.none) :
    ucLookup (m ++ [(k, v)]) k = Option.some v := by
  induction m with
  | nil => simp [ucLookup]
  | cons e rest ih =>
    obtain ⟨k2, w⟩ := e
    by_cases hk : k2 = k
    · rw [ucLookup, if_pos hk] at h
      exact Option.noConfusion h
    · rw [ucLookup, if_neg hk] at h
      rw [List.cons_append, ucLookup, if_neg hk]
      exact ih h

theorem ucLookup_append_one_ne (m : UpdateMap) (k2 k : Nat × Nat)
    (v : UpdateCollection) (h : k2 ≠ k) :
    ucLookup (m ++ [(k2, v)]) k = ucLookup m k := by
  induction m with
  | nil =>
    rw [List.nil_append]
    simp only [ucLookup]
    rw [if_neg h]
  | cons e rest ih =>
    obtain ⟨k3, w⟩ := e
    by_cases hk : k3 = k
    · rw [List.cons_append, ucLookup, if_pos hk, ucLookup, if_pos hk]
    · rw [List.cons_append, ucLookup, if_neg hk, ucLookup, if_neg hk]
      exact ih

theorem collectStep_preserves_some (getLast : Nat → Nat → Option Nat) (idx : Nat)
    (m : UpdateMap) (a c : Nat) (k : Nat × Nat) (v : UpdateCollection)
    (h : ucLookup m k = Option.some v) :
    ucLookup (collectStep getLast idx m a c) k = Option.some v := by
  rw [collectStep]
  cases hac : ucLookup m (a, c) with
  | some _ => exact h
  | none =>
    have hk : (a, c) ≠ k := by
      intro he
      rw [he, h] at hac
      exact Option.noConfusion hac
    dsimp only
    cases hg : getLast a c with
    | some last =>
      dsimp only
      by_cases hle : idx ≤ last
      · rw [if_pos hle]
        exact h
      · rw [if_neg hle, ucLookup_append_one_ne m _ k _ hk]
        exact h
    | none =>
      dsimp only
      rw [ucLookup_append_one_ne m _ k _ hk]
      exact h

theorem occFold_lookup (getLast : Nat → Nat → Option Nat)
    (occs : List (Nat × Nat × Nat)) :
    ∀ (m : UpdateMap) (a c : Nat),
    ucLookup (occFold getLast occs m) (a, c)
      = match ucLookup m (a, c) with
        | Option.some uc => Option.some uc
        | Option.none =>
          if ∃ t ∈ occs, t.2.1 = a ∧ t.2.2 = c ∧ qualifiesB getLast t.1 a c = true
          then Option.some ⟨a, c, getLast a c⟩
          else Option.none := by
  induction occs with
  | nil =>
    intro m a c
    cases h : ucLookup m (a, c) <;> simp [occFold, h]
  | cons t occs ih =>
    intro m a c
    rw [occFold, List.foldl_cons, ← occFold, ih]
    cases hm : ucLookup m (a, c) with
    | some uc =>
      rw [collectStep_preserves_some getLast t.1 m t.2.1 t.2.2 (a, c) uc hm]
    | none =>
      by_cases hk : t.2.1 = a ∧ t.2.2 = c
      · obtain ⟨hk1, hk2⟩ := hk
        have hmac : ucLookup m (t.2.1, t.2.2) = Option.none := by
          rw [hk1, hk2]
          exact hm
        rw [collectStep, hmac]
        dsimp only
        cases hg : getLast t.2.1 t.2.2 with
        | some last =>
          dsimp only
          by_cases hle : t.1 ≤ last
          · rw [if_pos hle, hm]
            have hq : qualifiesB getLast t.1 a c = false := by
              rw [qualifiesB, ← hk1, ← hk2, hg]
              simp
              omega
            have hiff :
                (∃ u ∈ t :: occs, u.2.1 = a ∧ u.2.2 = c
                    ∧ qualifiesB getLast u.1 a c = true)
                  ↔ (∃ u ∈ occs, u.2.1 = a ∧ u.2.2 = c
                    ∧ qualifiesB getLast u.1 a c = true) := by
              constructor
              · rintro ⟨u, hu, h1, h2, h3⟩
                rcases List.mem_cons.mp hu with rfl | hu2
                · rw [hq] at h3
                  exact Bool.noConfusion h3
                · exact ⟨u, hu2, h1, h2, h3⟩
              · rintro ⟨u, hu, h1, h2, h3⟩
                exact ⟨u, List.mem_cons_of_mem t hu, h1, h2, h3⟩
            by_cases hex : ∃ u ∈ occs, u.2.1 = a ∧ u.2.2 = c
                ∧ qualifiesB getLast u.1 a c = true
            · rw [if_pos hex, if_pos (hiff.mpr hex)]
            · rw [if_neg hex, if_neg (fun h => hex (hiff.mp h))]
          · rw [if_neg hle]
            have hnew : ucLookup (m ++ [((t.2.1, t.2.2),
                ⟨t.2.1, t.2.2, Option.some last⟩)]) (a, c)
                = Option.some ⟨t.2.1, t.2.2, Option.some last⟩ := by
              rw [hk1, hk2] at hmac ⊢
              exact ucLookup_append_one_self m (a, c) _ hm
            rw [hnew]
            have hex : ∃ u ∈ t :: occs, u.2.1 = a ∧ u.2.2 = c
                ∧ qualifiesB getLast u.1 a c = true := by
              refine ⟨t, List.mem_cons_self t occs, hk1, hk2, ?_⟩
              rw [qualifiesB, ← hk1, ← hk2, hg]
              simp
              omega
            rw [if_pos hex, ← hk1, ← hk2, hg]
        | none =>
          dsimp only
          have hnew : ucLookup (m ++ [((t.2.1, t.2.2),
              ⟨t.2.1, t.2.2, Option.none⟩)]) (a, c)
              = Option.some ⟨t.2.1, t.2.2, Option.none⟩ := by
            rw [hk1, hk2] at hmac ⊢
            exact ucLookup_append_one_self m (a, c) _ hm
          rw [hnew]
          have hex : ∃ u ∈ t :: occs, u.2.1 = a ∧ u.2.2 = c
              ∧ qualifiesB getLast u.1 a c = true := by
            refine ⟨t, List.mem_cons_self t occs, hk1, hk2, ?_⟩
            rw [qualifiesB, ← hk1, ← hk2, hg]
          rw [if_pos hex, ← hk1, ← hk2, hg]
      · have hstep : ucLookup (collectStep getLast t.1 m t.2.1 t.2.2) (a, c)
            = Option.none := by
          have hkne : (t.2.1, t.2.2) ≠ (a, c) := by
            intro he
            apply hk
            exact ⟨congrArg Prod.fst he, congrArg Prod.snd he⟩
          rw [collectStep]
          cases hac : ucLookup m (t.2.1, t.2.2) with
          | some _ => exact hm
          | none =>
            dsimp only
            cases hg : getLast t.2.1 t.2.2 with
            | some last =>
              dsimp only
              by_cases hle : t.1 ≤ last
              · rw [if_pos hle]
                exact hm
              · rw [if_neg hle, ucLookup_append_one_ne m _ _ _ hkne]
                exact hm
            | none =>
              dsimp only
              rw [ucLookup_append_one_ne m _ _ _ hkne]
              exact hm
        rw [hstep]
        have hiff :
            (∃ u ∈ t :: occs, u.2.1 = a ∧ u.2.2 = c
                ∧ qualifiesB getLast u.1 a c = true)
              ↔ (∃ u ∈ occs, u.2.1 = a ∧ u.2.2 = c
                ∧ qualifiesB getLast u.1 a c = true) := by
          constructor
          · rintro ⟨u, hu, h1, h2, h3⟩
            rcases List.mem_cons.mp hu with rfl | hu2
            · exact absurd ⟨h1, h2⟩ hk
            · exact ⟨u, hu2, h1, h2, h3⟩
          · rintro ⟨u, hu, h1, h2, h3⟩
            exact ⟨u, List.mem_cons_of_mem t hu, h1, h2, h3⟩
        by_cases hex : ∃ u ∈ occs, u.2.1 = a ∧ u.2.2 = c
            ∧ qualifiesB getLast u.1 a c = true
        · rw [if_pos hex, if_pos (hiff.mpr hex)]
        · rw [if_neg hex, if_neg (fun h => hex (hiff.mp h))]

/-- Claim C3: for every `UpdateLog{last_log, entries}` the follower handles,
the pair (account, collection) is present in `update_collections` — with
`from_change_id` equal to the follower's last known change id, or `None`
when it has none — exactly when some entry references the pair and the
follower's last known change id for it is strictly below that entry's index
(or absent); when the map is non-empty the follower buffers the raw entries
in `pending_entries`, marks itself not up to date and replies
`NeedUpdates` with those collections, and otherwise it commits the entries
and replies `Continue`. -/
theorem c3_handle_update_log (getLast : Nat → Nat → Option Nat)
    (st : FollowerState) (commitId : RaftId) (entries : List RawEntry) :
    (∀ a c,
      ucLookup (updateCollections getLast entries) (a, c)
        = if ∃ re ∈ entries, ∃ p ∈ entryAccounts re.entry,
              p.1 = a ∧ c ∈ p.2 ∧ qualifiesB getLast re.id.index a c = true
          then Option.some ⟨a, c, getLast a c⟩
          else Option.none) ∧
    (updateCollections getLast entries ≠ [] →
      handle_update_log getLast st commitId entries
        = ({ st with pendingEntries := entries, upToDate := false },
            Response.needUpdates
              ((updateCollections getLast entries).map Prod.snd))) ∧
    (updateCollections getLast entries = [] →
      handle_update_log getLast st commitId entries
        = (commitLog st entries commitId, Response.continueR)) := by
  refine ⟨?_, ?_, ?_⟩
  · intro a c
    have hcond :
        (∃ t ∈ occurrences entries,
            t.2.1 = a ∧ t.2.2 = c ∧ qualifiesB getLast t.1 a c = true)
          ↔ (∃ re ∈ entries, ∃ p ∈ entryAccounts re.entry,
            p.1 = a ∧ c ∈ p.2 ∧ qualifiesB getLast re.id.index a c = true) := by
      constructor
      · rintro ⟨t, ht, h1, h2, h3⟩
        simp only [occurrences, List.mem_flatMap, List.mem_map] at ht
        obtain ⟨re, hre, p, hp, c0, hc0, rfl⟩ := ht
        dsimp only at h1 h2 h3
        subst h1
        subst h2
        exact ⟨re, hre, p, hp, rfl, hc0, h3⟩
      · rintro ⟨re, hre, p, hp, h1, h2, h3⟩
        refine ⟨(re.id.index, p.1, c), ?_, h1, rfl, h3⟩
        simp only [occurrences, List.mem_flatMap, List.mem_map]
        exact ⟨re, hre, p, hp, c, h2, rfl⟩
    rw [updateCollections, occFold_lookup getLast (occurrences entries) [] a c]
    dsimp only [ucLookup]
    by_cases hex : ∃ re ∈ entries, ∃ p ∈ entryAccounts re.entry,
        p.1 = a ∧ c ∈ p.2 ∧ qualifiesB getLast re.id.index a c = true
    · rw [if_pos (hcond.mpr hex), if_pos hex]
    · rw [if_neg (fun h => hex (hcond.mp h)), if_neg hex]
  · intro hne
    rw [handle_update_log]
    rw [if_pos hne]
  · intro hnil
    rw [handle_update_log]
    rw [if_neg (fun h => h hnil)]

/-- A concrete last-change-id oracle for the C3 witness. -/
def sampleGetLast : Nat → Nat → Option Nat := fun _ _ => Option.some 5

/-- One raw log entry at index 10 touching (account 1, collection 2). -/
def sampleEntries : List RawEntry := [⟨⟨1, 10⟩, Entry.item 1 [2]⟩]

/-- A follower that is initially up to date with nothing buffered. -/
def sampleFollower : FollowerState := ⟨[], true, []⟩

/-- Witness for C3 at a concrete input: the entry at index 10 outruns the
follower's last change id 5, so (1, 2) is recorded with
`from_change_id = Some 5` and the follower replies `NeedUpdates`, buffering
the entries and dropping its up-to-date flag. -/
theorem c3_handle_update_log_witness :
    ucLookup (updateCollections sampleGetLast sampleEntries) (1, 2)
      = (if ∃ re ∈ sampleEntries, ∃ p ∈ entryAccounts re.entry,
            p.1 = 1 ∧ 2 ∈ p.2 ∧ qualifiesB sampleGetLast re.id.index 1 2 = true
         then Option.some ⟨1, 2, sampleGetLast 1 2⟩
         else Option.none) ∧
    handle_update_log sampleGetLast sampleFollower ⟨1, 10⟩ sampleEntries
      = ({ sampleFollower with pendingEntries := sampleEntries, upToDate := false },
          Response.needUpdates
            ((updateCollections sampleGetLast sampleEntries).map Prod.snd)) := by
  have h := c3_handle_update_log sampleGetLast sampleFollower ⟨1, 10⟩ sampleEntries
  exact ⟨h.1 1 2, h.2.1 (by decide)⟩

/-! ### Leader catch-up batching (`prepare_changes`, claim C9) -/

/-- `BATCH_MAX_SIZE = 10 * 1024 * 1024`. -/
def BATCH_MAX_SIZE : Nat := 10 * 1024 * 1024

/-- Modelled from the source use of `std::mem::size_of::<Change>()`; the
concrete value is platform-dependent and none of the verified properties
depend on it. -/
def sizeOfChange : Nat := 64

/-- The `Change` wire variants sent in `UpdateStore` messages. -/
inductive Change where
  | insertMail (jmapId : Nat) (keywords mailboxes : List JmapStore.Tag)
      (receivedAt : Int) (body : JmapStore.Bytes)
  | updateMail (jmapId : Nat) (keywords mailboxes : List JmapStore.Tag)
  | updateMailbox (jmapId : Nat) (mailbox : Nat)
  | insertChange (changeId : Nat) (entry : JmapStore.Bytes)
  | delete (documentId : Nat)
  | commit
deriving DecidableEq, Repr

/-- `store::raft::PendingChanges` (not part of this snapshot; modelled from
its use sites): the id sets still to stream for one (account, collection),
as sorted sets of ids. -/
structure PendingChanges where
  accountId : Nat
  collection : Nat
  inserts : List Nat
  updates : List Nat
  deletes : List Nat
  changes : List Nat
deriving DecidableEq, Repr

/-- `RoaringBitmap::min`. -/
def setMin (l : List Nat) : Option Nat := l.min?

/-- `RoaringBitmap::remove`. -/
def setRemove (l : List Nat) (x : Nat) : List Nat := l.filter (fun y => y ≠ x)

/-- `PendingChanges::is_empty`: all four id sets drained. -/
def PendingChanges.isEmpty (pc : PendingChanges) : Bool :=
  pc.inserts.isEmpty && pc.updates.isEmpty && pc.deletes.isEmpty && pc.changes.isEmpty

/-- The store reads behind `fetch_item` and `fetch_raw_change`: each
returns the change plus the `item_size` the source computes from tag and
body lengths (`None` models a missing document). -/
structure PrepareOracles where
  fetchIns : Nat → Option (Change × Nat)
  fetchUpd : Nat → Option (Change × Nat)
  fetchChange : Nat → Option (Change × Nat)

/-- One turn of the source's four-way `if let ... else if let ...` chain:
take the minimum id of the first non-empty set, remove it, and fetch the
corresponding item; `none` is the `break` of the loop. -/
def pickItem (O : PrepareOracles) (pc : PendingChanges) :
    Option (Option (Change × Nat) × PendingChanges) :=
  match setMin pc.inserts with
  | Option.some d =>
    Option.some (O.fetchIns d, { pc with inserts := setRemove pc.inserts d })
  | Option.none =>
    match setMin pc.updates with
    | Option.some d =>
      Option.some (O.fetchUpd d, { pc with updates := setRemove pc.updates d })
    | Option.none =>
      match setMin pc.deletes with
      | Option.some d =>
        Option.some (Option.some (Change.delete d, sizeOfChange),
          { pc with deletes := setRemove pc.deletes d })
      | Option.none =>
        match setMin pc.changes with
        | Option.some cid =>
          Option.some (O.fetchChange cid, { pc with changes := setRemove pc.changes cid })
        | Option.none => Option.none

/-- Sum of the accumulated `item_size`s: the source's `batch_size`. -/
def sumSizes (l : List (Change × Nat)) : Nat :=
  l.foldl (fun acc p => acc + p.2) 0

/-- The accumulation loop of `prepare_changes`: push fetched items and stop
as soon as `batch_size >= BATCH_MAX_SIZE` or all sources are exhausted. The
fuel only bounds recursion depth; the total cardinality of the four sets is
always sufficient since every turn removes one id. -/
def prepareLoop (O : PrepareOracles) :
    Nat → PendingChanges → List (Change × Nat) → List (Change × Nat) × PendingChanges
  | 0, pc, acc => (acc, pc)
  | fuel + 1, pc, acc =>
    match pickItem O pc with
    | Option.none => (acc, pc)
    | Option.some (item, pc2) =>
      match item with
      | Option.some it =>
        let acc2 := acc ++ [it]
        if BATCH_MAX_SIZE ≤ sumSizes acc2 then (acc2, pc2)
        else prepareLoop O fuel pc2 acc2
      | Option.none =>
        if BATCH_MAX_SIZE ≤ sumSizes acc then (acc, pc2)
        else prepareLoop O fuel pc2 acc

/-- Fuel sufficient for `prepareLoop`. -/
def totalLen (pc : PendingChanges) : Nat :=
  pc.inserts.length + pc.updates.length + pc.deletes.length + pc.changes.length

/-- `prepare_changes` (worker success path): accumulate items, then append
`Change::Commit` exactly when the pending changes are drained and no
further collections remain; the returned list is the `UpdateStore`
payload. -/
def prepare_changes (O : PrepareOracles) (pc : PendingChanges)
    (hasMoreChanges : Bool) : List Change × PendingChanges :=
  let r := prepareLoop O (totalLen pc) pc []
  if r.2.isEmpty && !hasMoreChanges then
    (r.1.map Prod.fst ++ [Change.commit], r.2)
  else (r.1.map Prod.fst, r.2)

theorem sumSizes_append_one (l : List (Change × Nat)) (p : Change × Nat) :
    sumSizes (l ++ [p]) = sumSizes l + p.2 := by
  simp [sumSizes, List.foldl_append]

theorem sumSizes_dropLast_le (l : List (Change × Nat)) :
    sumSizes l.dropLast ≤ sumSizes l := by
  cases hl : l.getLast? with
  | none =>
    rw [List.getLast?_eq_none_iff.mp hl]
    simp
  | some p =>
    conv_rhs => rw [← List.dropLast_append_getLast? p hl]
    rw [sumSizes_append_one]
    omega

theorem prepareLoop_prefix_bound (O : PrepareOracles) (fuel : Nat) :
    ∀ (pc : PendingChanges) (acc : List (Change × Nat)),
    sumSizes acc < BATCH_MAX_SIZE →
    sumSizes ((prepareLoop O fuel pc acc).1).dropLast < BATCH_MAX_SIZE := by
  induction fuel with
  | zero =>
    intro pc acc hacc
    exact Nat.lt_of_le_of_lt (sumSizes_dropLast_le acc) hacc
  | succ fuel ih =>
    intro pc acc hacc
    rw [prepareLoop]
    cases hp : pickItem O pc with
    | none => exact Nat.lt_of_le_of_lt (sumSizes_dropLast_le acc) hacc
    | some q =>
      obtain ⟨item, pc2⟩ := q
      cases item with
      | some it =>
        dsimp only
        by_cases hb : BATCH_MAX_SIZE ≤ sumSizes (acc ++ [it])
        · rw [if_pos hb]
          rw [List.dropLast_concat]
          exact hacc
        · rw [if_neg hb]
          exact ih pc2 (acc ++ [it]) (Nat.lt_of_not_le hb)
      | none =>
        dsimp only
        by_cases hb : BATCH_MAX_SIZE ≤ sumSizes acc
        · exact absurd hb (Nat.not_le_of_lt hacc)
        · rw [if_neg hb]
          exact ih pc2 acc hacc

/-- Counterexample to C9 as stated: one pending insert whose fetched item
carries an 11 MiB body-sized payload is pushed before the budget check, so
the prepared `UpdateStore` batch weighs 11534336 bytes, above the claimed
10 MiB (`BATCH_MAX_SIZE`) bound. -/
theorem c9_batch_exceeds_ten_mib :
    (prepareLoop
        ⟨fun d => Option.some (Change.updateMail d [] [], 11534336),
          fun _ => Option.none, fun _ => Option.none⟩
        (totalLen ⟨1, 2, [0], [], [], []⟩) ⟨1, 2, [0], [], [], []⟩ []).1
      = [(Change.updateMail 0 [] [], 11534336)] ∧
    BATCH_MAX_SIZE < sumSizes [(Change.updateMail 0 [] [], 11534336)] :=
  ⟨rfl, by norm_num [BATCH_MAX_SIZE, sumSizes]⟩

/-- Claim C9 (amended): `BATCH_MAX_SIZE` is 10 MiB and item accumulation
stops as soon as the running byte total reaches or exceeds it (the check
runs after each push, so only the final pushed item may carry the total to
or past the bound: every proper prefix of the accumulated items weighs
strictly less than `BATCH_MAX_SIZE`) or all sources are exhausted; and
`Change::Commit` is appended exactly when the pending changes are empty
and no further collections remain. -/
theorem c9_prepare_changes_bound (O : PrepareOracles) (pc : PendingChanges)
    (hasMoreChanges : Bool) :
    BATCH_MAX_SIZE = 10 * 1024 * 1024 ∧
    sumSizes ((prepareLoop O (totalLen pc) pc []).1).dropLast < BATCH_MAX_SIZE ∧
    (prepare_changes O pc hasMoreChanges).1
      = ((prepareLoop O (totalLen pc) pc []).1).map Prod.fst
        ++ (if (prepareLoop O (totalLen pc) pc []).2.isEmpty && !hasMoreChanges
            then [Change.commit] else []) := by
  refine ⟨rfl, ?_, ?_⟩
  · exact prepareLoop_prefix_bound O (totalLen pc) pc [] (by norm_num [sumSizes, BATCH_MAX_SIZE])
  · rw [prepare_changes]
    cases hc : (prepareLoop O (totalLen pc) pc []).2.isEmpty && !hasMoreChanges <;>
      simp [hc]

end JmapCluster
